import Mathlib

/-!
# Name tree (`ntree`): a shallow embedding of `tree.go`

A `Node` owns an ordered list of children.  Go's `*Node` results are modelled by
the node value together with its position (the child indices leading to it from
the receiver); a mutation through such a pointer is a functional update at that
position.  A run-time failure of the Go code (index out of range) is the result
`none`.  Strings are Lean strings, `interface{}` payloads are `Option E`
(`none` is Go's `nil`).
-/

namespace NameTree

/-- Go `type Node struct { component string; entry interface{}; children []*Node }`. -/
inductive Node (E : Type) where
  | mk (component : String) (entry : Option E) (children : List (Node E)) : Node E

namespace Node

variable {E : Type}

/-- Field `component`. -/
def component : Node E → String
  | mk c _ _ => c

/-- Field `entry`. -/
def entry : Node E → Option E
  | mk _ e _ => e

/-- Field `children`. -/
def children : Node E → List (Node E)
  | mk _ _ ch => ch

end Node

open Node

variable {E : Type}

/-- Go `New(root)`: a node labelled `root`, nil entry, no children. -/
def New (root : String) : Node E := Node.mk root none []

/-- Go `strings.Split(s, "/")` on the characters of `s`: the pieces between
the slashes, always at least one piece. -/
def splitSlash : List Char → List (List Char)
  | [] => [[]]
  | c :: cs =>
    if c = '/' then [] :: splitSlash cs
    else
      match splitSlash cs with
      | [] => [[c]]
      | w :: ws => (c :: w) :: ws

/-- Go `strings.Split(name, "/")[1:]`: the component sequence of a name. -/
def components (name : String) : List String :=
  ((splitSlash name.data).map String.mk).tail

/-- Go `strings.Join(elems, "/")`. -/
def joinSlash (elems : List String) : String :=
  "/".intercalate elems

/-- The `for _, child := range n.children` scan of `walkTree`: the first child in
collection order whose label equals `component`, with its index. -/
def lookup (component : String) : List (Node E) → Option (Nat × Node E)
  | [] => none
  | child :: rest =>
    if component = child.component then some (0, child)
    else (lookup component rest).map (fun r => (r.1 + 1, r.2))

/-- The triple returned by `walkTree`; the `*Node` is the node and its position. -/
structure Walk (E : Type) where
  node : Node E
  path : List Nat
  component : String
  sentinel : Nat

/-- Go `walkTree`.  `components[0]` on an empty slice is a run-time failure. -/
def walkTree : Node E → List String → Option (Walk E)
  | _, [] => none
  | n, component :: next =>
    match lookup component n.children with
    | some (k, child) =>
      match next with
      | [] => some ⟨child, [k], component, n.children.length⟩
      | _ :: _ => (walkTree child next).map (fun w => { w with path := k :: w.path })
    | none => some ⟨n, [], component, 0⟩

/-- Replace the `k`-th element of a list by its image under `f`. -/
def updateNth {α : Type} (f : α → α) : Nat → List α → List α
  | _, [] => []
  | 0, a :: as => f a :: as
  | k + 1, a :: as => a :: updateNth f k as

/-- The assignment `someNode.children = append(someNode.children, new)` where
`someNode` is the node at position `path` below `n`. -/
def appendAt (new : Node E) : List Nat → Node E → Node E
  | [], n => Node.mk n.component n.entry (n.children ++ [new])
  | k :: ks, n => Node.mk n.component n.entry (updateNth (appendAt new ks) k n.children)

/-- The `for count != 0` loop of `Insert`, `count` iterations left. -/
def insertLoop (comps : List String) (entry : Option E) : Nat → Node E → Option (Node E)
  | 0, n => some n
  | count + 1, n =>
    match walkTree n comps with
    | none => none
    | some w =>
      if w.sentinel > 0 then some n
      else insertLoop comps entry count (appendAt (Node.mk w.component entry []) w.path n)

/-- Go `Insert(name, entry)`; the result is the tree after the call. -/
def Insert (n : Node E) (name : String) (entry : Option E) : Option (Node E) :=
  insertLoop (components name) entry (components name).length n

/-- The index loop of `find`: the last index of `comps` holding `label`, 0 when
there is none. -/
def lastIndex (label : String) (comps : List String) : Nat :=
  comps.enum.foldl (fun index kc => if kc.2 = label then kc.1 else index) 0

/-- The four results of Go `find`. -/
structure Found (E : Type) where
  longest : String
  entry : Option E
  found : Bool
  isExact : Bool

/-- Go `find`.  `walkTree` never returns a nil node, so `found` is set on every
return. -/
def find (n : Node E) (name : String) : Option (Found E) :=
  match walkTree n (components name) with
  | none => none
  | some w =>
    if w.sentinel > 0 then some ⟨name, w.node.entry, true, true⟩
    else
      some ⟨joinSlash ((components name).take (lastIndex w.node.component (components name) + 1)),
        w.node.entry, true, false⟩

/-- Go `FindExactMatch`. -/
def FindExactMatch (n : Node E) (name : String) : Option (Option E × Bool) :=
  (find n name).map (fun r => if r.found && r.isExact then (r.entry, true) else (none, false))

/-- Go `FindLongestMatch`. -/
def FindLongestMatch (n : Node E) (name : String) : Option (String × Option E × Bool) :=
  (find n name).map (fun r => (r.longest, r.entry, r.found))

/-- A sequence of `Insert` calls, in order. -/
def insertAll : Node E → List (String × Option E) → Option (Node E)
  | n, [] => some n
  | n, op :: ops => (Insert n op.1 op.2).bind (fun n1 => insertAll n1 ops)

/-- Go `Size`: one for a non-empty label, plus the sizes of the children. -/
def Size : Node E → Nat
  | Node.mk c _ ch => (if c ≠ "" then 1 else 0) + sizeChildren ch
where
  /-- The `for _, child := range n.children` sum of `Size`. -/
  sizeChildren : List (Node E) → Nat
    | [] => 0
    | child :: rest => Size child + sizeChildren rest

/-- Go `print(writer, indent)`; the writer is the text written so far.  One
`Fprintf` of `indent` spaces, the label, a space and a newline, then the children
in order with `indent + 2`. -/
def print : Node E → Nat → String → String
  | Node.mk c _ ch, indent, buf =>
    printChildren ch (indent + 2) (buf ++ (String.mk (List.replicate indent ' ') ++ c ++ " \n"))
where
  /-- The `for _, child := range n.children` loop of `print`. -/
  printChildren : List (Node E) → Nat → String → String
    | [], _, buf => buf
    | child :: rest, indent, buf => printChildren rest indent (print child indent buf)

/-- Go `String()`: `print` into an empty buffer at indent 0. -/
def treeString (n : Node E) : String := print n 0 ""

/-- Go `type jsonTree struct { Component string; Children []*jsonTree }`. -/
inductive jsonTree where
  | mk (Component : String) (Children : List jsonTree) : jsonTree

/-- Field `Component`. -/
def jsonTree.Component : jsonTree → String
  | jsonTree.mk c _ => c

/-- Field `Children`. -/
def jsonTree.Children : jsonTree → List jsonTree
  | jsonTree.mk _ ch => ch

/-- Go `newJSONTree`: copy the label, append the conversion of each child in
order to the (initially nil) `Children`. -/
def newJSONTree : Node E → jsonTree
  | Node.mk c _ ch => jsonTree.mk c (copyChildren ch [])
where
  /-- The loop `jt.Children = append(jt.Children, newJSONTree(child))`. -/
  copyChildren : List (Node E) → List jsonTree → List jsonTree
    | [], acc => acc
    | child :: rest, acc => copyChildren rest (acc ++ [newJSONTree child])

/-! ## Vocabulary of the specification -/

/-- The node at a position: follow the child indices from the receiver. -/
def nodeAt : List Nat → Node E → Option (Node E)
  | [], n => some n
  | k :: ks, n => (n.children[k]?).bind (nodeAt ks)

/-- Follow a component sequence from a node, taking at each step the first child
in collection order that carries the next label; `none` when the sequence is not
an existing path.  With unique sibling labels this is the only path with these
labels (`descend_of_Reaches`). -/
def descend : List String → Node E → Option (Node E)
  | [], n => some n
  | x :: xs, n =>
    match lookup x n.children with
    | none => none
    | some (_, child) => descend xs child

/-- The position reached by the same descent: the child indices taken. -/
def position : List String → Node E → Option (List Nat)
  | [], _ => some []
  | x :: xs, n =>
    match lookup x n.children with
    | none => none
    | some (k, child) => (position xs child).map (fun ks => k :: ks)

/-- The non-empty leading segments of a component sequence, shortest first. -/
def segments : List String → List (List String)
  | [] => []
  | x :: xs => [x] :: (segments xs).map (fun s => x :: s)

/-- A chain of fresh nodes labelled `x`, then the labels of `xs` in order, each
the only child of the one before and each carrying `entry`. -/
def chain (entry : Option E) : String → List String → Node E
  | x, [] => Node.mk x entry []
  | x, y :: ys => Node.mk x entry [chain entry y ys]

/-- Insertion of a component sequence described by recursion along the path:
below an existing first-match child go on with the rest, otherwise append the
chain of all remaining components. -/
def insertPath (entry : Option E) : List String → Node E → Node E
  | [], n => n
  | x :: xs, n =>
    match lookup x n.children with
    | none => Node.mk n.component n.entry (n.children ++ [chain entry x xs])
    | some (k, _) => Node.mk n.component n.entry (updateNth (insertPath entry xs) k n.children)

/-- The number of trailing components of a sequence that are not yet a path. -/
def missing : List String → Node E → Nat
  | [], _ => 0
  | x :: xs, n =>
    match lookup x n.children with
    | none => xs.length + 1
    | some (_, child) => missing xs child

/-- Sibling-label uniqueness: no node of the tree has two children with the same
component label. -/
def SiblingUnique (t : Node E) : Prop :=
  ∀ pos node, nodeAt pos t = some node → (node.children.map Node.component).Nodup

/-- The distinct non-empty leading component segments of the inserted names. -/
def insertedSegments (ops : List (String × Option E)) : List (List String) :=
  (ops.flatMap (fun op => segments (components op.1))).dedup

/-- The weight of the last component of a segment, 0 for the empty segment. -/
def lastWeight (w : String → Nat) (s : List String) : Nat :=
  match s.getLast? with
  | some c => w c
  | none => 0

/-- A path in the tree, any choice of children allowed: `Reaches n cs node` when
`node` is reached from `n` through children labelled by `cs` in order. -/
inductive Reaches : Node E → List String → Node E → Prop
  | here (n : Node E) : Reaches n [] n
  | step {n child node : Node E} {xs : List String} :
      child ∈ n.children → Reaches child xs node → Reaches n (child.component :: xs) node

/-- The number of nodes of a tree, the receiver included. -/
def nodeCount : Node E → Nat
  | Node.mk _ _ ch => 1 + countChildren ch
where
  /-- The nodes of a list of subtrees. -/
  countChildren : List (Node E) → Nat
    | [] => 0
    | child :: rest => nodeCount child + countChildren rest

/-- One line of the display form: `2 * depth` spaces, the label, a space and a
newline. -/
def line (depth : Nat) (label : String) : String :=
  String.mk (List.replicate (2 * depth) ' ') ++ label ++ " \n"

/-- The concatenation of a list of strings, in order. -/
def concatLines : List String → String
  | [] => ""
  | s :: rest => s ++ concatLines rest

/-- The nodes of a tree in depth-first pre-order, children in collection order,
each with its position; `base` is the position of the receiver. -/
def preorder : List Nat → Node E → List (List Nat × Node E)
  | base, Node.mk c e ch => (base, Node.mk c e ch) :: preorderChildren base 0 ch
where
  /-- The subtrees of a list of children, the first one at index `i`. -/
  preorderChildren : List Nat → Nat → List (Node E) → List (List Nat × Node E)
    | _, _, [] => []
    | base, i, child :: rest =>
      preorder (base ++ [i]) child ++ preorderChildren base (i + 1) rest

/-- The tree with every payload erased. -/
def erase : Node E → Node E
  | Node.mk c _ ch => Node.mk c none (eraseChildren ch)
where
  /-- The children with every payload erased. -/
  eraseChildren : List (Node E) → List (Node E)
    | [] => []
    | child :: rest => erase child :: eraseChildren rest

/-- The label tree read back from the exported `component`/`children` shape; the
shape holds no payload, so every entry is nil. -/
def labelTree : jsonTree → Node E
  | jsonTree.mk c ch => Node.mk c none (labelChildren ch)
where
  /-- The label trees of a list of exported children. -/
  labelChildren : List jsonTree → List (Node E)
    | [] => []
    | child :: rest => labelTree child :: labelChildren rest

/-! ## Basic facts -/

@[simp] theorem component_mk (c : String) (e : Option E) (ch : List (Node E)) :
    (Node.mk c e ch).component = c := rfl

@[simp] theorem entry_mk (c : String) (e : Option E) (ch : List (Node E)) :
    (Node.mk c e ch).entry = e := rfl

@[simp] theorem children_mk (c : String) (e : Option E) (ch : List (Node E)) :
    (Node.mk c e ch).children = ch := rfl

theorem mk_eta (n : Node E) : Node.mk n.component n.entry n.children = n := by
  cases n; rfl

theorem lookup_some {x : String} {ch : List (Node E)} {k : Nat} {child : Node E}
    (h : lookup x ch = some (k, child)) : ch[k]? = some child ∧ child.component = x := by
  induction ch generalizing k with
  | nil => simp [lookup] at h
  | cons c rest ih =>
    rw [lookup] at h
    split_ifs at h with hc
    · simp only [Option.some.injEq, Prod.mk.injEq] at h
      obtain ⟨rfl, rfl⟩ := h
      exact ⟨by simp, hc.symm⟩
    · cases hr : lookup x rest with
      | none => simp [hr] at h
      | some r =>
        obtain ⟨j, c2⟩ := r
        simp only [hr, Option.map_some', Option.some.injEq, Prod.mk.injEq] at h
        obtain ⟨rfl, rfl⟩ := h
        have := ih hr
        exact ⟨by simpa using this.1, this.2⟩

theorem lookup_none {x : String} {ch : List (Node E)} :
    lookup x ch = none ↔ ∀ c ∈ ch, c.component ≠ x := by
  induction ch with
  | nil => simp [lookup]
  | cons c rest ih =>
    rw [lookup]
    split_ifs with hc
    · simp [hc]
    · simp only [Option.map_eq_none', ih, List.mem_cons, forall_eq_or_imp]
      exact ⟨fun h => ⟨fun e => hc e.symm, h⟩, fun h => h.2⟩

theorem lookup_length_pos {x : String} {ch : List (Node E)} {r : Nat × Node E}
    (h : lookup x ch = some r) : 0 < ch.length := by
  cases ch with
  | nil => simp [lookup] at h
  | cons c rest => simp

theorem lookup_append_some {x : String} {ch : List (Node E)} {r : Nat × Node E}
    (h : lookup x ch = some r) (more : List (Node E)) : lookup x (ch ++ more) = some r := by
  induction ch generalizing r with
  | nil => simp [lookup] at h
  | cons c rest ih =>
    rw [List.cons_append, lookup]
    rw [lookup] at h
    split_ifs at h ⊢ with hc
    · exact h
    · cases hr : lookup x rest with
      | none => simp [hr] at h
      | some r2 => rw [ih hr]; rw [hr] at h; exact h

theorem lookup_append_none {x : String} {ch : List (Node E)} (h : lookup x ch = none)
    (new : Node E) (hn : new.component = x) :
    lookup x (ch ++ [new]) = some (ch.length, new) := by
  induction ch with
  | nil => simp [lookup, hn]
  | cons c rest ih =>
    rw [lookup] at h
    rw [List.cons_append, lookup]
    split_ifs at h ⊢ with hc
    rw [Option.map_eq_none'] at h
    rw [ih h]
    simp

theorem lookup_append_other {x : String} {ch : List (Node E)} (h : lookup x ch = none)
    (new : Node E) (hn : new.component ≠ x) : lookup x (ch ++ [new]) = none := by
  rw [lookup_none] at h ⊢
  intro c hc
  rcases List.mem_append.1 hc with h1 | h1
  · exact h c h1
  · simp only [List.mem_singleton] at h1
    rw [h1]; exact hn

/-- Updating one child by a label-preserving function does not change what the
scan finds, apart from the updated child itself. -/
theorem lookup_updateNth {x : String} (f : Node E → Node E)
    (hf : ∀ c, (f c).component = c.component) (k : Nat) (ch : List (Node E)) :
    lookup x (updateNth f k ch) =
      (lookup x ch).map (fun r => (r.1, if r.1 = k then f r.2 else r.2)) := by
  induction ch generalizing k with
  | nil => cases k <;> simp [updateNth, lookup]
  | cons c rest ih =>
    cases k with
    | zero =>
      simp only [updateNth, lookup, hf]
      split_ifs with hc
      · simp
      · cases lookup x rest <;> simp
    | succ k =>
      simp only [updateNth, lookup]
      split_ifs with hc
      · simp
      · rw [ih]
        cases lookup x rest <;> simp

theorem updateNth_getElem? {α : Type} (f : α → α) (k i : Nat) (l : List α) :
    (updateNth f k l)[i]? = if i = k then l[i]?.map f else l[i]? := by
  induction l generalizing k i with
  | nil => cases k <;> simp [updateNth]
  | cons a as ih =>
    cases k with
    | zero => cases i <;> simp [updateNth]
    | succ k =>
      cases i with
      | zero => simp [updateNth]
      | succ i => simp [updateNth, ih]

theorem updateNth_length {α : Type} (f : α → α) (k : Nat) (l : List α) :
    (updateNth f k l).length = l.length := by
  induction l generalizing k with
  | nil => cases k <;> simp [updateNth]
  | cons a as ih => cases k <;> simp [updateNth, ih]

theorem updateNth_id {α : Type} (f : α → α) (k : Nat) (l : List α)
    (h : ∀ a, l[k]? = some a → f a = a) : updateNth f k l = l := by
  induction l generalizing k with
  | nil => cases k <;> simp [updateNth]
  | cons a as ih =>
    cases k with
    | zero => simp [updateNth, h a (by simp)]
    | succ k => simp [updateNth, ih k (fun b hb => h b (by simpa using hb))]

theorem updateNth_updateNth {α : Type} (f g : α → α) (k : Nat) (l : List α) :
    updateNth f k (updateNth g k l) = updateNth (fun a => f (g a)) k l := by
  induction l generalizing k with
  | nil => cases k <;> simp [updateNth]
  | cons a as ih => cases k <;> simp [updateNth, ih]

theorem updateNth_congr {α : Type} (f g : α → α) (k : Nat) (l : List α)
    (h : ∀ a, l[k]? = some a → f a = g a) : updateNth f k l = updateNth g k l := by
  induction l generalizing k with
  | nil => cases k <;> simp [updateNth]
  | cons a as ih =>
    cases k with
    | zero => simp [updateNth, h a (by simp)]
    | succ k => simp [updateNth, ih k (fun b hb => h b (by simpa using hb))]

theorem updateNth_append_last {α : Type} (f : α → α) (l : List α) (a : α) :
    updateNth f l.length (l ++ [a]) = l ++ [f a] := by
  induction l with
  | nil => simp [updateNth]
  | cons b bs ih => simp [updateNth, ih]

/-! ## Unfolding lemmas -/

theorem walkTree_none {n : Node E} {x : String} (xs : List String)
    (h : lookup x n.children = none) : walkTree n (x :: xs) = some ⟨n, [], x, 0⟩ := by
  simp only [walkTree, h]

theorem walkTree_last {n : Node E} {x : String} {k : Nat} {child : Node E}
    (h : lookup x n.children = some (k, child)) :
    walkTree n [x] = some ⟨child, [k], x, n.children.length⟩ := by
  simp only [walkTree, h]

theorem walkTree_more {n : Node E} {x : String} {k : Nat} {child : Node E} (y : String)
    (ys : List String) (h : lookup x n.children = some (k, child)) :
    walkTree n (x :: y :: ys) =
      (walkTree child (y :: ys)).map (fun w => { w with path := k :: w.path }) := by
  rw [walkTree]
  simp only [h]

theorem missing_none {n : Node E} {x : String} (xs : List String)
    (h : lookup x n.children = none) : missing (x :: xs) n = xs.length + 1 := by
  simp only [missing, h]

theorem missing_some {n : Node E} {x : String} {k : Nat} {child : Node E} (xs : List String)
    (h : lookup x n.children = some (k, child)) : missing (x :: xs) n = missing xs child := by
  simp only [missing, h]

theorem insertPath_none (e : Option E) {n : Node E} {x : String} (xs : List String)
    (h : lookup x n.children = none) :
    insertPath e (x :: xs) n = Node.mk n.component n.entry (n.children ++ [chain e x xs]) := by
  simp only [insertPath, h]

theorem insertPath_some (e : Option E) {n : Node E} {x : String} {k : Nat} {child : Node E}
    (xs : List String) (h : lookup x n.children = some (k, child)) :
    insertPath e (x :: xs) n =
      Node.mk n.component n.entry (updateNth (insertPath e xs) k n.children) := by
  simp only [insertPath, h]

theorem descend_none {n : Node E} {x : String} (xs : List String)
    (h : lookup x n.children = none) : descend (x :: xs) n = none := by
  simp only [descend, h]

theorem descend_some {n : Node E} {x : String} {k : Nat} {child : Node E} (xs : List String)
    (h : lookup x n.children = some (k, child)) : descend (x :: xs) n = descend xs child := by
  simp only [descend, h]

/-! ## The insertion loop computes `insertPath` -/

theorem appendAt_component (new : Node E) (p : List Nat) (n : Node E) :
    (appendAt new p n).component = n.component := by
  cases p <;> simp [appendAt]

theorem appendAt_entry (new : Node E) (p : List Nat) (n : Node E) :
    (appendAt new p n).entry = n.entry := by
  cases p <;> simp [appendAt]

theorem chain_component (e : Option E) (x : String) (xs : List String) :
    (chain e x xs).component = x := by
  cases xs <;> simp [chain]

theorem chain_entry (e : Option E) (x : String) (xs : List String) :
    (chain e x xs).entry = e := by
  cases xs <;> simp [chain]

theorem insertPath_component (e : Option E) (cs : List String) (n : Node E) :
    (insertPath e cs n).component = n.component := by
  cases cs with
  | nil => rfl
  | cons x xs =>
    cases hl : lookup x n.children with
    | none => rw [insertPath_none e xs hl]; rfl
    | some r => rw [insertPath_some e xs hl]; rfl

theorem insertPath_entry (e : Option E) (cs : List String) (n : Node E) :
    (insertPath e cs n).entry = n.entry := by
  cases cs with
  | nil => rfl
  | cons x xs =>
    cases hl : lookup x n.children with
    | none => rw [insertPath_none e xs hl]; rfl
    | some r => rw [insertPath_some e xs hl]; rfl

theorem missing_le (cs : List String) (n : Node E) : missing cs n ≤ cs.length := by
  induction cs generalizing n with
  | nil => simp [missing]
  | cons x xs ih =>
    cases hl : lookup x n.children with
    | none => rw [missing_none xs hl]; simp
    | some r => rw [missing_some xs hl]; exact Nat.le_trans (ih _) (by simp)

theorem missing_leaf (x : String) (e : Option E) (xs : List String) :
    missing xs (Node.mk x e []) = xs.length := by
  cases xs <;> simp [missing, lookup]

theorem insertPath_leaf (e : Option E) (x : String) (xs : List String) :
    insertPath e xs (Node.mk x e []) = chain e x xs := by
  cases xs <;> simp [insertPath, lookup, chain]

theorem insertPath_of_missing_zero (e : Option E) (cs : List String) (n : Node E)
    (h : missing cs n = 0) : insertPath e cs n = n := by
  induction cs generalizing n with
  | nil => rfl
  | cons x xs ih =>
    cases hl : lookup x n.children with
    | none => rw [missing_none xs hl] at h; omega
    | some r =>
      obtain ⟨k, child⟩ := r
      rw [missing_some xs hl] at h
      rw [insertPath_some e xs hl, updateNth_id]
      · exact mk_eta n
      · intro a ha
        rw [(lookup_some hl).1] at ha
        cases ha
        exact ih _ h

theorem lookup_updateNth_self {x : String} (f : Node E → Node E)
    (hf : ∀ c, (f c).component = c.component) {k : Nat} {ch : List (Node E)} {child : Node E}
    (h : lookup x ch = some (k, child)) :
    lookup x (updateNth f k ch) = some (k, f child) := by
  rw [lookup_updateNth f hf, h]
  simp

/-- One iteration of the loop of `Insert`: either the whole sequence is a path and
the sentinel is positive, or the sentinel is zero and appending a leaf at the
node reached makes one more component a path without changing what the whole
insertion will build. -/
theorem walkTree_step (e : Option E) (cs : List String) (n : Node E) (hcs : cs ≠ []) :
    ∃ w, walkTree n cs = some w ∧
      ((missing cs n = 0 ∧ 0 < w.sentinel) ∨
       (w.sentinel = 0 ∧
         missing cs (appendAt (Node.mk w.component e []) w.path n) + 1 = missing cs n ∧
         insertPath e cs (appendAt (Node.mk w.component e []) w.path n) = insertPath e cs n)) := by
  induction cs generalizing n with
  | nil => exact absurd rfl hcs
  | cons x xs ih =>
    cases hl : lookup x n.children with
    | none =>
      have hlk := lookup_append_none hl (Node.mk x e []) (component_mk _ _ _)
      refine ⟨⟨n, [], x, 0⟩, walkTree_none xs hl, Or.inr ⟨rfl, ?_, ?_⟩⟩
      · have h2 : lookup x (appendAt (Node.mk x e []) [] n).children
            = some (n.children.length, Node.mk x e []) := hlk
        rw [missing_some xs h2, missing_none xs hl, missing_leaf]
      · have h2 : lookup x (appendAt (Node.mk x e []) [] n).children
            = some (n.children.length, Node.mk x e []) := hlk
        rw [insertPath_some e xs h2, insertPath_none e xs hl]
        simp only [appendAt, component_mk, entry_mk, children_mk, updateNth_append_last,
          insertPath_leaf]
    | some r =>
      obtain ⟨k, child⟩ := r
      cases xs with
      | nil =>
        refine ⟨⟨child, [k], x, n.children.length⟩, walkTree_last hl, Or.inl ⟨?_, ?_⟩⟩
        · rw [missing_some [] hl]; rfl
        · exact lookup_length_pos hl
      | cons y ys =>
        obtain ⟨w0, hw0, h0⟩ := ih child (by simp)
        refine ⟨{ w0 with path := k :: w0.path }, by rw [walkTree_more y ys hl, hw0]; rfl, ?_⟩
        rcases h0 with ⟨hm, hs⟩ | ⟨hs, hm, hi⟩
        · exact Or.inl ⟨by rw [missing_some _ hl]; exact hm, hs⟩
        · have hlk : lookup x (appendAt (Node.mk w0.component e []) (k :: w0.path) n).children
              = some (k, appendAt (Node.mk w0.component e []) w0.path child) :=
            lookup_updateNth_self _ (appendAt_component _ _) hl
          refine Or.inr ⟨hs, ?_, ?_⟩
          · show missing (x :: y :: ys) (appendAt (Node.mk w0.component e []) (k :: w0.path) n) + 1
              = missing (x :: y :: ys) n
            rw [missing_some _ hlk, missing_some _ hl]
            exact hm
          · show insertPath e (x :: y :: ys)
              (appendAt (Node.mk w0.component e []) (k :: w0.path) n) = insertPath e (x :: y :: ys) n
            rw [insertPath_some e _ hlk, insertPath_some e _ hl]
            simp only [appendAt, component_mk, entry_mk, children_mk, updateNth_updateNth]
            congr 1
            apply updateNth_congr
            intro a ha
            rw [(lookup_some hl).1] at ha
            cases ha
            exact hi

theorem insertLoop_eq (e : Option E) (cs : List String) (hcs : cs ≠ []) (fuel : Nat)
    (n : Node E) (h : missing cs n ≤ fuel) :
    insertLoop cs e fuel n = some (insertPath e cs n) := by
  induction fuel generalizing n with
  | zero =>
    rw [insertLoop, insertPath_of_missing_zero e cs n (Nat.le_zero.1 h)]
  | succ fuel ih =>
    obtain ⟨w, hw, hc⟩ := walkTree_step e cs n hcs
    rw [insertLoop, hw]
    rcases hc with ⟨hm, hs⟩ | ⟨hs, hm, hi⟩
    · simp only [gt_iff_lt, hs, if_true]
      rw [insertPath_of_missing_zero e cs n hm]
    · simp only [hs, gt_iff_lt, lt_self_iff_false, if_false]
      rw [ih _ (by omega), hi]

/-- The tree after `Insert` is the tree `insertPath` describes; in particular the
call always returns. -/
theorem Insert_eq (n : Node E) (name : String) (e : Option E) :
    Insert n name e = some (insertPath e (components name) n) := by
  unfold Insert
  cases hcs : components name with
  | nil => rfl
  | cons x xs =>
    exact insertLoop_eq e (x :: xs) (by simp) _ n (missing_le _ _)

/-! ## Lookup is a descent along the labels -/

/-- What `walkTree` reports about a non-empty sequence: a positive sentinel and
the node reached when the whole sequence is a path, a zero sentinel otherwise. -/
theorem walkTree_descend (cs : List String) (n : Node E) (hcs : cs ≠ []) :
    ∃ w, walkTree n cs = some w ∧
      ((descend cs n = some w.node ∧ 0 < w.sentinel) ∨ (descend cs n = none ∧ w.sentinel = 0)) := by
  induction cs generalizing n with
  | nil => exact absurd rfl hcs
  | cons x xs ih =>
    cases hl : lookup x n.children with
    | none => exact ⟨_, walkTree_none xs hl, Or.inr ⟨descend_none xs hl, rfl⟩⟩
    | some r =>
      obtain ⟨k, child⟩ := r
      cases xs with
      | nil =>
        exact ⟨_, walkTree_last hl, Or.inl ⟨by rw [descend_some [] hl]; rfl, lookup_length_pos hl⟩⟩
      | cons y ys =>
        obtain ⟨w0, hw0, h0⟩ := ih child (by simp)
        refine ⟨{ w0 with path := k :: w0.path }, by rw [walkTree_more y ys hl, hw0]; rfl, ?_⟩
        rw [descend_some _ hl]
        exact h0

/-- `FindExactMatch` on a name with at least one component is the descent along
its components: the entry of the node reached, or `(nil, false)`. -/
theorem FindExactMatch_eq (n : Node E) (name : String) (h : components name ≠ []) :
    FindExactMatch n name =
      some (match descend (components name) n with
        | some node => (node.entry, true)
        | none => (none, false)) := by
  obtain ⟨w, hw, hc⟩ := walkTree_descend (components name) n h
  unfold FindExactMatch find
  rw [hw]
  rcases hc with ⟨hd, hs⟩ | ⟨hd, hs⟩
  · simp [hs, hd]
  · simp [hs, hd]

theorem descend_append (q r : List String) (n : Node E) :
    descend (q ++ r) n = (descend q n).bind (descend r) := by
  induction q generalizing n with
  | nil => rfl
  | cons x xs ih =>
    cases hl : lookup x n.children with
    | none => rw [List.cons_append, descend_none _ hl, descend_none _ hl]; rfl
    | some c => rw [List.cons_append, descend_some _ hl, descend_some _ hl, ih]

theorem descend_chain (e : Option E) (x : String) (xs q : List String) :
    (q <+: xs → ∃ node, descend q (chain e x xs) = some node ∧ node.entry = e) ∧
    (¬ q <+: xs → descend q (chain e x xs) = none) := by
  induction xs generalizing x q with
  | nil =>
    cases q with
    | nil => exact ⟨fun _ => ⟨_, rfl, rfl⟩, fun h => absurd (List.nil_prefix) h⟩
    | cons y ys => exact ⟨fun h => by simp at h, fun _ => by simp [chain, descend, lookup]⟩
  | cons z zs ih =>
    cases q with
    | nil => exact ⟨fun _ => ⟨_, rfl, chain_entry _ _ _⟩, fun h => absurd (List.nil_prefix) h⟩
    | cons y ys =>
      by_cases hy : y = z
      · subst hy
        have hl : lookup y (chain e x (y :: zs)).children = some (0, chain e y zs) := by
          simp [chain, lookup, chain_component]
        rw [descend_some _ hl, List.cons_prefix_cons]
        exact ⟨fun h => (ih y ys).1 h.2, fun h => (ih y ys).2 (fun h2 => h ⟨rfl, h2⟩)⟩
      · have hl : lookup y (chain e x (z :: zs)).children = none := by
          simp [chain, lookup, chain_component, hy]
        rw [descend_none _ hl, List.cons_prefix_cons]
        exact ⟨fun h => absurd h.1 hy, fun _ => rfl⟩

/-- One step of a descent in the tree after an insertion. -/
theorem descend_insertPath_cons (e : Option E) (x y : String) (cs q : List String) (n : Node E) :
    descend (y :: q) (insertPath e (x :: cs) n) =
      if y = x then
        match lookup x n.children with
        | none => descend q (chain e x cs)
        | some (_, child) => descend q (insertPath e cs child)
      else descend (y :: q) n := by
  cases hl : lookup x n.children with
  | none =>
    rw [insertPath_none e cs hl]
    split_ifs with hy
    · subst hy
      have h2 : lookup y (Node.mk n.component n.entry (n.children ++ [chain e y cs])).children
          = some (n.children.length, chain e y cs) :=
        lookup_append_none hl _ (chain_component _ _ _)
      rw [descend_some _ h2]
    · cases hy2 : lookup y n.children with
      | none =>
        have h2 : lookup y (Node.mk n.component n.entry (n.children ++ [chain e x cs])).children
            = none :=
          lookup_append_other hy2 _ (by rw [chain_component]; exact fun h => hy h.symm)
        rw [descend_none _ h2, descend_none _ hy2]
      | some r =>
        have h2 : lookup y (Node.mk n.component n.entry (n.children ++ [chain e x cs])).children
            = some r := lookup_append_some hy2 _
        rw [descend_some _ h2, descend_some _ hy2]
  | some r =>
    obtain ⟨k, child⟩ := r
    rw [insertPath_some e cs hl]
    split_ifs with hy
    · subst hy
      have h2 : lookup y (Node.mk n.component n.entry
          (updateNth (insertPath e cs) k n.children)).children
          = some (k, insertPath e cs child) :=
        lookup_updateNth_self _ (insertPath_component e cs) hl
      rw [descend_some _ h2]
    · cases hy2 : lookup y n.children with
      | none =>
        have h2 : lookup y (Node.mk n.component n.entry
            (updateNth (insertPath e cs) k n.children)).children = none := by
          show lookup y (updateNth (insertPath e cs) k n.children) = none
          rw [lookup_updateNth _ (insertPath_component e cs), hy2]; rfl
        rw [descend_none _ h2, descend_none _ hy2]
      | some r2 =>
        obtain ⟨k2, c2⟩ := r2
        have hk : k2 ≠ k := by
          intro hk
          subst hk
          have h1 := lookup_some hl
          have h3 := lookup_some hy2
          rw [h1.1] at h3
          have : child = c2 := by simpa using h3.1
          subst this
          exact hy (h3.2.symm.trans h1.2)
        have h2 : lookup y (Node.mk n.component n.entry
            (updateNth (insertPath e cs) k n.children)).children = some (k2, c2) := by
          show lookup y (updateNth (insertPath e cs) k n.children) = some (k2, c2)
          rw [lookup_updateNth _ (insertPath_component e cs), hy2]
          simp [hk]
        rw [descend_some _ h2, descend_some _ hy2]

/-- The descents of the tree after an insertion: a node that was there is still
reached (and is the insertion of the rest of the sequence below it when the
descent runs along the inserted sequence), a path that was missing exists
afterwards exactly when it is a leading segment of the inserted sequence, and
then its node carries the inserted entry. -/
theorem descend_insertPath (e : Option E) (cs q : List String) (n : Node E) :
    (∀ node, descend q n = some node → q <+: cs →
      descend q (insertPath e cs n) = some (insertPath e (cs.drop q.length) node)) ∧
    (∀ node, descend q n = some node → ¬ q <+: cs →
      descend q (insertPath e cs n) = some node) ∧
    (descend q n = none → q <+: cs →
      ∃ node, descend q (insertPath e cs n) = some node ∧ node.entry = e) ∧
    (descend q n = none → ¬ q <+: cs → descend q (insertPath e cs n) = none) := by
  induction cs generalizing n q with
  | nil =>
    refine ⟨?_, fun node h _ => h, ?_, fun h _ => h⟩
    · intro node h hq
      have hq2 : q = [] := List.prefix_nil.1 hq
      subst hq2
      exact h
    · intro h hq
      have hq2 : q = [] := List.prefix_nil.1 hq
      subst hq2
      simp [descend] at h
  | cons x cs ih =>
    cases q with
    | nil =>
      refine ⟨?_, fun node _ h => absurd List.nil_prefix h, ?_, fun _ h => absurd List.nil_prefix h⟩
      · intro node h _
        simp only [descend, Option.some.injEq] at h
        subst h
        rfl
      · intro h
        simp [descend] at h
    | cons y q =>
      rw [descend_insertPath_cons, List.cons_prefix_cons]
      by_cases hy : y = x
      · subst hy
        simp only [if_true, true_and]
        cases hl : lookup y n.children with
        | none =>
          rw [descend_none _ hl]
          refine ⟨fun node h => by simp at h, fun node h => by simp at h, ?_, ?_⟩
          · exact fun _ hq => (descend_chain e y cs q).1 hq
          · exact fun _ hq => (descend_chain e y cs q).2 hq
        | some r =>
          obtain ⟨k, child⟩ := r
          rw [descend_some _ hl]
          simp only [List.length_cons, List.drop_succ_cons]
          exact ih q child
      · simp only [hy, if_false, false_and]
        exact ⟨fun _ _ h => absurd h id, fun _ h _ => h, fun _ h => absurd h id, fun h _ => h⟩

theorem descend_insertPath_isSome (e : Option E) (cs q : List String) (n : Node E) :
    (descend q (insertPath e cs n)).isSome = true ↔
      ((descend q n).isSome = true ∨ q <+: cs) := by
  obtain ⟨h1, h2, h3, h4⟩ := descend_insertPath e cs q n
  by_cases hq : q <+: cs
  · cases hd : descend q n with
    | some node => simp [h1 node hd hq, hq]
    | none =>
      obtain ⟨node, hn, _⟩ := h3 hd hq
      simp [hn, hq]
  · cases hd : descend q n with
    | some node => simp [h2 node hd hq]
    | none => simp [h4 hd hq, hq]

/-- A node reached before an insertion is reached afterwards with the same entry. -/
theorem descend_insertPath_entry (e : Option E) (cs q : List String) (n node : Node E)
    (h : descend q n = some node) :
    ∃ node2, descend q (insertPath e cs n) = some node2 ∧ node2.entry = node.entry
      ∧ node2.component = node.component := by
  obtain ⟨h1, h2, _, _⟩ := descend_insertPath e cs q n
  by_cases hq : q <+: cs
  · exact ⟨_, h1 node h hq, insertPath_entry _ _ _, insertPath_component _ _ _⟩
  · exact ⟨_, h2 node h hq, rfl, rfl⟩

/-! ## Positions and node counts -/

theorem position_none {n : Node E} {x : String} (xs : List String)
    (h : lookup x n.children = none) : position (x :: xs) n = none := by
  simp only [position, h]

theorem position_some {n : Node E} {x : String} {k : Nat} {child : Node E} (xs : List String)
    (h : lookup x n.children = some (k, child)) :
    position (x :: xs) n = (position xs child).map (fun ks => k :: ks) := by
  simp only [position, h]

/-- The position of a descent holds the node the descent reaches. -/
theorem nodeAt_position (cs : List String) (n : Node E) (pos : List Nat)
    (h : position cs n = some pos) : nodeAt pos n = descend cs n := by
  induction cs generalizing n pos with
  | nil =>
    simp only [position, Option.some.injEq] at h
    subst h
    rfl
  | cons x xs ih =>
    cases hl : lookup x n.children with
    | none => rw [position_none xs hl] at h; simp at h
    | some r =>
      obtain ⟨k, child⟩ := r
      rw [position_some xs hl] at h
      cases hp : position xs child with
      | none => rw [hp] at h; simp at h
      | some ks =>
        rw [hp] at h
        simp only [Option.map_some', Option.some.injEq] at h
        subst h
        rw [descend_some xs hl, nodeAt, (lookup_some hl).1]
        exact ih child ks hp

theorem position_isSome (cs : List String) (n : Node E) :
    (position cs n).isSome = (descend cs n).isSome := by
  induction cs generalizing n with
  | nil => rfl
  | cons x xs ih =>
    cases hl : lookup x n.children with
    | none => rw [position_none xs hl, descend_none xs hl]; rfl
    | some r =>
      obtain ⟨k, child⟩ := r
      rw [position_some xs hl, descend_some xs hl, ← ih child]
      cases position xs child <;> rfl

/-- Inserting a sequence whose first `m` components are a path and whose next
component is missing appends one chain at the position reached. -/
theorem insertPath_eq_appendAt (e : Option E) (m : Nat) (cs : List String) (n : Node E)
    (pos : List Nat) (x : String) (xs : List String)
    (hpos : position (cs.take m) n = some pos) (hdrop : cs.drop m = x :: xs)
    (hmiss : descend (cs.take (m + 1)) n = none) :
    insertPath e cs n = appendAt (chain e x xs) pos n := by
  induction m generalizing cs n pos with
  | zero =>
    simp only [List.take_zero, position, Option.some.injEq] at hpos
    simp only [List.drop_zero] at hdrop
    subst hpos hdrop
    cases hl : lookup x n.children with
    | none => rw [insertPath_none e xs hl]; rfl
    | some r =>
      obtain ⟨k, child⟩ := r
      rw [List.take_succ_cons, descend_some _ hl] at hmiss
      simp [descend] at hmiss
  | succ m ih =>
    cases cs with
    | nil => simp at hdrop
    | cons c cs =>
      rw [List.take_succ_cons] at hpos hmiss
      rw [List.drop_succ_cons] at hdrop
      cases hl : lookup c n.children with
      | none => rw [position_none _ hl] at hpos; simp at hpos
      | some r =>
        obtain ⟨k, child⟩ := r
        rw [position_some _ hl] at hpos
        rw [descend_some _ hl] at hmiss
        cases hp : position (cs.take m) child with
        | none => rw [hp] at hpos; simp at hpos
        | some ks =>
          rw [hp] at hpos
          simp only [Option.map_some', Option.some.injEq] at hpos
          subst hpos
          rw [insertPath_some e cs hl, appendAt]
          congr 1
          apply updateNth_congr
          intro a ha
          rw [(lookup_some hl).1] at ha
          cases ha
          exact ih cs child ks hp hdrop hmiss

theorem nodeCount_mk (c : String) (e : Option E) (ch : List (Node E)) :
    nodeCount (Node.mk c e ch) = 1 + nodeCount.countChildren ch := by
  rw [nodeCount]

theorem countChildren_append (l1 l2 : List (Node E)) :
    nodeCount.countChildren (l1 ++ l2) =
      nodeCount.countChildren l1 + nodeCount.countChildren l2 := by
  induction l1 with
  | nil => simp [nodeCount.countChildren]
  | cons a as ih => simp [nodeCount.countChildren, ih, Nat.add_assoc]

theorem countChildren_updateNth (f : Node E → Node E) (k : Nat) (l : List (Node E))
    (child : Node E) (d : Nat) (hk : l[k]? = some child)
    (hf : nodeCount (f child) = nodeCount child + d) :
    nodeCount.countChildren (updateNth f k l) = nodeCount.countChildren l + d := by
  induction l generalizing k with
  | nil => simp at hk
  | cons a as ih =>
    cases k with
    | zero =>
      simp only [List.getElem?_cons_zero, Option.some.injEq] at hk
      subst hk
      simp only [updateNth, nodeCount.countChildren, hf]
      omega
    | succ k =>
      simp only [List.getElem?_cons_succ] at hk
      simp only [updateNth, nodeCount.countChildren, ih k hk]
      omega

theorem nodeCount_chain (e : Option E) (x : String) (xs : List String) :
    nodeCount (chain e x xs) = xs.length + 1 := by
  induction xs generalizing x with
  | nil => simp [chain, nodeCount, nodeCount.countChildren]
  | cons y ys ih =>
    simp only [chain, nodeCount_mk, nodeCount.countChildren, ih, List.length_cons]
    omega

theorem nodeCount_appendAt (new : Node E) (pos : List Nat) (n : Node E)
    (h : (nodeAt pos n).isSome = true) :
    nodeCount (appendAt new pos n) = nodeCount n + nodeCount new := by
  induction pos generalizing n with
  | nil =>
    cases n with
    | mk c e ch =>
      simp only [appendAt, nodeCount_mk, children_mk, countChildren_append,
        nodeCount.countChildren]
      omega
  | cons k ks ih =>
    cases n with
    | mk c e ch =>
      simp only [nodeAt, children_mk] at h
      cases hk : ch[k]? with
      | none => rw [hk] at h; simp at h
      | some child =>
        rw [hk] at h
        simp only [appendAt, nodeCount_mk, children_mk, component_mk, entry_mk]
        rw [countChildren_updateNth _ k ch child (nodeCount new) hk (ih child h)]
        omega

/-! ## Sequences of insertions -/

theorem missing_eq_zero_of_descend (cs : List String) (n : Node E)
    (h : (descend cs n).isSome = true) : missing cs n = 0 := by
  induction cs generalizing n with
  | nil => rfl
  | cons x xs ih =>
    cases hl : lookup x n.children with
    | none => rw [descend_none xs hl] at h; simp at h
    | some r =>
      obtain ⟨k, child⟩ := r
      rw [descend_some xs hl] at h
      rw [missing_some xs hl]
      exact ih child h

theorem insertPath_of_descend (e : Option E) (cs : List String) (n : Node E)
    (h : (descend cs n).isSome = true) : insertPath e cs n = n :=
  insertPath_of_missing_zero e cs n (missing_eq_zero_of_descend cs n h)

theorem insertAll_eq (n : Node E) (ops : List (String × Option E)) :
    insertAll n ops = some (ops.foldl (fun t op => insertPath op.2 (components op.1) t) n) := by
  induction ops generalizing n with
  | nil => rfl
  | cons op ops ih =>
    rw [insertAll, Insert_eq, Option.some_bind, ih]
    rfl

/-- The entry found at a path after a sequence of insertions: the entry already
there, or else the entry of the first insertion that has the path as a leading
segment of its components. -/
theorem descend_foldl (ops : List (String × Option E)) (q : List String) (n : Node E) :
    (∀ node, descend q n = some node →
      ∃ node2, descend q (ops.foldl (fun t op => insertPath op.2 (components op.1) t) n)
        = some node2 ∧ node2.entry = node.entry) ∧
    (descend q n = none →
      match ops.find? (fun op => decide (q <+: components op.1)) with
      | some op => ∃ node2,
          descend q (ops.foldl (fun t op => insertPath op.2 (components op.1) t) n) = some node2
            ∧ node2.entry = op.2
      | none =>
          descend q (ops.foldl (fun t op => insertPath op.2 (components op.1) t) n) = none) := by
  induction ops generalizing n with
  | nil => exact ⟨fun node h => ⟨node, h, rfl⟩, fun h => h⟩
  | cons op ops ih =>
    simp only [List.foldl_cons]
    constructor
    · intro node h
      obtain ⟨n1, h1, he1, _⟩ := descend_insertPath_entry op.2 (components op.1) q n node h
      obtain ⟨n2, h2, he2⟩ := (ih (insertPath op.2 (components op.1) n)).1 n1 h1
      exact ⟨n2, h2, he2.trans he1⟩
    · intro h
      by_cases hq : q <+: components op.1
      · rw [List.find?_cons_of_pos _ (by simpa using hq)]
        obtain ⟨n1, h1, he1⟩ := (descend_insertPath op.2 (components op.1) q n).2.2.1 h hq
        obtain ⟨n2, h2, he2⟩ := (ih (insertPath op.2 (components op.1) n)).1 n1 h1
        exact ⟨n2, h2, he2.trans he1⟩
      · rw [List.find?_cons_of_neg _ (by simpa using hq)]
        exact (ih (insertPath op.2 (components op.1) n)).2
          ((descend_insertPath op.2 (components op.1) q n).2.2.2 h hq)

theorem descend_New (root : String) (q : List String) (hq : q ≠ []) :
    descend q (New root : Node E) = none := by
  cases q with
  | nil => exact absurd rfl hq
  | cons x xs => rfl

/-- `FindExactMatch` on a tree built by insertions: the entry of the first
insertion whose components start with the components of the query. -/
theorem FindExactMatch_insertAll (root : String) (ops : List (String × Option E))
    (name : String) (h : components name ≠ []) :
    ∃ t, insertAll (New root) ops = some t ∧
      FindExactMatch t name =
        some (match ops.find? (fun op => decide (components name <+: components op.1)) with
          | some op => (op.2, true)
          | none => (none, false)) := by
  refine ⟨_, insertAll_eq _ ops, ?_⟩
  rw [FindExactMatch_eq _ name h]
  have := (descend_foldl ops (components name) (New root : Node E)).2 (descend_New root _ h)
  cases hf : ops.find? (fun op => decide (components name <+: components op.1)) with
  | none => rw [hf] at this; rw [this]
  | some op =>
    rw [hf] at this
    obtain ⟨n2, h2, he2⟩ := this
    rw [h2]
    show some (n2.entry, true) = some (op.2, true)
    rw [he2]

theorem splitSlash_length (l : List Char) : (splitSlash l).length = l.count '/' + 1 := by
  induction l with
  | nil => rfl
  | cons c cs ih =>
    rw [splitSlash]
    split_ifs with hc
    · subst hc
      simp [ih]
    · have hne : (c == '/') = false := by simpa using hc
      rw [List.count_cons, hne]
      cases hs : splitSlash cs with
      | nil => rw [hs] at ih; simp at ih
      | cons w ws => rw [hs] at ih; simpa using ih

/-- A name has at least one component exactly when it contains a slash. -/
theorem components_ne_nil_iff (name : String) : components name ≠ [] ↔ '/' ∈ name.data := by
  unfold components
  rw [← List.length_pos, List.length_tail, List.length_map, splitSlash_length,
    ← List.count_pos_iff]
  omega

/-! ## Frame and invariant of an insertion -/

theorem map_updateNth {α β : Type} (g : α → β) (f : α → α) (hf : ∀ a, g (f a) = g a)
    (k : Nat) (l : List α) : (updateNth f k l).map g = l.map g := by
  induction l generalizing k with
  | nil => cases k <;> simp [updateNth]
  | cons a as ih => cases k <;> simp [updateNth, hf, ih]

theorem nodeAt_cons (k : Nat) (ks : List Nat) (n : Node E) :
    nodeAt (k :: ks) n = (n.children[k]?).bind (nodeAt ks) := rfl

/-- Every node present before an insertion is at the same position afterwards,
with its label and entry, and its children before are the first children after. -/
theorem nodeAt_insertPath (e : Option E) (cs : List String) (n : Node E) (pos : List Nat)
    (node : Node E) (h : nodeAt pos n = some node) :
    ∃ node2, nodeAt pos (insertPath e cs n) = some node2 ∧
      node2.component = node.component ∧ node2.entry = node.entry ∧
      node.children.map (fun c => (c.component, c.entry))
        <+: node2.children.map (fun c => (c.component, c.entry)) := by
  induction cs generalizing n pos node with
  | nil => exact ⟨node, h, rfl, rfl, List.prefix_refl _⟩
  | cons x cs ih =>
    cases hl : lookup x n.children with
    | none =>
      rw [insertPath_none e cs hl]
      cases pos with
      | nil =>
        simp only [nodeAt, Option.some.injEq] at h
        subst h
        exact ⟨_, rfl, rfl, rfl, by simp⟩
      | cons i ps =>
        rw [nodeAt_cons] at h
        refine ⟨node, ?_, rfl, rfl, List.prefix_refl _⟩
        rw [nodeAt_cons, children_mk]
        cases hi : n.children[i]? with
        | none => rw [hi] at h; simp at h
        | some c =>
          have hlt : i < n.children.length := (List.getElem?_eq_some_iff.1 hi).1
          rw [List.getElem?_append_left hlt, hi]
          rw [hi] at h
          exact h
    | some r =>
      obtain ⟨k, child⟩ := r
      rw [insertPath_some e cs hl]
      cases pos with
      | nil =>
        simp only [nodeAt, Option.some.injEq] at h
        subst h
        refine ⟨_, rfl, rfl, rfl, ?_⟩
        rw [children_mk, map_updateNth _ _ (fun a => by
          rw [insertPath_component, insertPath_entry])]
      | cons i ps =>
        rw [nodeAt_cons] at h
        rw [nodeAt_cons, children_mk, updateNth_getElem?]
        cases hi : n.children[i]? with
        | none => rw [hi] at h; simp at h
        | some c =>
          rw [hi] at h
          by_cases hik : i = k
          · rw [if_pos hik]
            exact ih c ps node h
          · rw [if_neg hik]
            exact ⟨node, h, rfl, rfl, List.prefix_refl _⟩

theorem nodeAt_chain (e : Option E) (x : String) (xs : List String) (pos : List Nat)
    (node : Node E) (h : nodeAt pos (chain e x xs) = some node) : node.children.length ≤ 1 := by
  induction xs generalizing x pos with
  | nil =>
    cases pos with
    | nil =>
      simp only [nodeAt, chain, Option.some.injEq] at h
      subst h
      simp
    | cons i ps => simp [nodeAt, chain] at h
  | cons y ys ih =>
    cases pos with
    | nil =>
      simp only [nodeAt, chain, Option.some.injEq] at h
      subst h
      simp
    | cons i ps =>
      cases i with
      | zero =>
        simp only [nodeAt_cons, chain, children_mk, List.getElem?_cons_zero,
          Option.some_bind] at h
        exact ih y ps h
      | succ i => simp [nodeAt_cons, chain] at h

theorem nodup_of_length_le_one {α : Type} (l : List α) (h : l.length ≤ 1) : l.Nodup := by
  match l, h with
  | [], _ => exact List.nodup_nil
  | [a], _ => exact List.nodup_singleton a

theorem SiblingUnique_child (n : Node E) (k : Nat) (child : Node E)
    (hk : n.children[k]? = some child) (h : SiblingUnique n) : SiblingUnique child := by
  intro pos node hn
  apply h (k :: pos) node
  rw [nodeAt_cons, hk]
  exact hn

/-- An insertion keeps sibling labels unique. -/
theorem SiblingUnique_insertPath (e : Option E) (cs : List String) (n : Node E)
    (h : SiblingUnique n) : SiblingUnique (insertPath e cs n) := by
  induction cs generalizing n with
  | nil => exact h
  | cons x cs ih =>
    cases hl : lookup x n.children with
    | none =>
      rw [insertPath_none e cs hl]
      intro pos node hn
      cases pos with
      | nil =>
        simp only [nodeAt, Option.some.injEq] at hn
        subst hn
        rw [children_mk, List.map_append, List.map_singleton, chain_component]
        refine List.Nodup.append (h [] n rfl) (List.nodup_singleton x) ?_
        rw [List.disjoint_singleton]
        intro hx
        obtain ⟨c, hc, hcx⟩ := List.mem_map.1 hx
        exact (lookup_none.1 hl) c hc hcx
      | cons i ps =>
        rw [nodeAt_cons, children_mk] at hn
        by_cases hlt : i < n.children.length
        · rw [List.getElem?_append_left hlt] at hn
          exact h (i :: ps) node (by rw [nodeAt_cons]; exact hn)
        · rw [List.getElem?_append_right (Nat.le_of_not_lt hlt)] at hn
          cases hi : i - n.children.length with
          | zero =>
            rw [hi] at hn
            simp only [List.getElem?_cons_zero, Option.some_bind] at hn
            exact nodup_of_length_le_one _ (by
              rw [List.length_map]; exact nodeAt_chain e x cs ps node hn)
          | succ d => rw [hi] at hn; simp at hn
    | some r =>
      obtain ⟨k, child⟩ := r
      rw [insertPath_some e cs hl]
      intro pos node hn
      cases pos with
      | nil =>
        simp only [nodeAt, Option.some.injEq] at hn
        subst hn
        rw [children_mk, map_updateNth _ _ (insertPath_component e cs)]
        exact h [] n rfl
      | cons i ps =>
        rw [nodeAt_cons, children_mk, updateNth_getElem?] at hn
        cases hi : n.children[i]? with
        | none => rw [hi] at hn; simp at hn
        | some c =>
          rw [hi] at hn
          by_cases hik : i = k
          · rw [if_pos hik] at hn
            exact ih c (SiblingUnique_child n i c hi h) ps node hn
          · rw [if_neg hik] at hn
            exact h (i :: ps) node (by rw [nodeAt_cons, hi]; exact hn)

theorem SiblingUnique_New (root : String) : SiblingUnique (New root : Node E) := by
  intro pos node hn
  cases pos with
  | nil =>
    simp only [nodeAt, New, Option.some.injEq] at hn
    subst hn
    exact List.nodup_nil
  | cons i ps => simp [nodeAt_cons, New] at hn

theorem SiblingUnique_foldl (ops : List (String × Option E)) (n : Node E)
    (h : SiblingUnique n) :
    SiblingUnique (ops.foldl (fun t op => insertPath op.2 (components op.1) t) n) := by
  induction ops generalizing n with
  | nil => exact h
  | cons op ops ih => exact ih _ (SiblingUnique_insertPath op.2 (components op.1) n h)

/-! ## Paths in trees with unique sibling labels -/

theorem lookup_of_mem_nodup (ch : List (Node E)) (child : Node E)
    (hn : (ch.map Node.component).Nodup) (hc : child ∈ ch) :
    ∃ k, lookup child.component ch = some (k, child) := by
  induction ch with
  | nil => simp at hc
  | cons c rest ih =>
    rw [List.map_cons, List.nodup_cons] at hn
    rw [lookup]
    rcases List.mem_cons.1 hc with h | h
    · subst h
      exact ⟨0, by simp⟩
    · have hne : ¬ child.component = c.component := by
        intro he
        exact hn.1 (he ▸ List.mem_map_of_mem Node.component h)
      obtain ⟨k, hk⟩ := ih hn.2 h
      exact ⟨k + 1, by rw [if_neg hne, hk]; rfl⟩

/-- The descent follows a path of the tree. -/
theorem Reaches_of_descend (cs : List String) (n node : Node E)
    (h : descend cs n = some node) : Reaches n cs node := by
  induction cs generalizing n with
  | nil =>
    simp only [descend, Option.some.injEq] at h
    subst h
    exact Reaches.here n
  | cons x xs ih =>
    cases hl : lookup x n.children with
    | none => rw [descend_none xs hl] at h; simp at h
    | some r =>
      obtain ⟨k, child⟩ := r
      rw [descend_some xs hl] at h
      have hk := lookup_some hl
      rw [← hk.2]
      exact Reaches.step (List.mem_iff_getElem?.2 ⟨k, hk.1⟩) (ih child h)

/-- With unique sibling labels every path of the tree is the one the descent
follows: the first-match descent and path existence agree. -/
theorem descend_of_Reaches (cs : List String) (n node : Node E) (hu : SiblingUnique n)
    (h : Reaches n cs node) : descend cs n = some node := by
  induction h with
  | here n => rfl
  | @step n2 child node2 xs hc _ ih =>
    obtain ⟨k, hk⟩ := lookup_of_mem_nodup n2.children child (hu [] n2 rfl) hc
    rw [descend_some xs hk]
    exact ih (SiblingUnique_child n2 k child (lookup_some hk).1 hu)

/-! ## Counting nodes through an insertion

The lemmas are stated for any additive measure `f` of trees with label weight `w`;
`Size` and `nodeCount` are the two instances. -/

theorem segments_ne_nil (cs s : List String) (h : s ∈ segments cs) : s ≠ [] := by
  cases cs with
  | nil => simp [segments] at h
  | cons x xs =>
    simp only [segments, List.mem_cons, List.mem_map] at h
    rcases h with h | ⟨a, _, h⟩
    · rw [h]; simp
    · rw [← h]; simp

theorem mem_segments (cs s : List String) : s ∈ segments cs ↔ s ≠ [] ∧ s <+: cs := by
  induction cs generalizing s with
  | nil =>
    simp only [segments, List.not_mem_nil, List.prefix_nil, false_iff]
    exact fun h => h.1 h.2
  | cons x xs ih =>
    simp only [segments, List.mem_cons, List.mem_map]
    constructor
    · rintro (h | ⟨a, ha, h⟩)
      · rw [h]
        exact ⟨by simp, by rw [List.cons_prefix_cons]; exact ⟨rfl, List.nil_prefix⟩⟩
      · rw [← h]
        exact ⟨by simp, by rw [List.cons_prefix_cons]; exact ⟨rfl, ((ih a).1 ha).2⟩⟩
    · rintro ⟨hne, hp⟩
      cases s with
      | nil => exact absurd rfl hne
      | cons y ys =>
        rw [List.cons_prefix_cons] at hp
        obtain ⟨rfl, hp⟩ := hp
        cases ys with
        | nil => exact Or.inl rfl
        | cons z zs => exact Or.inr ⟨z :: zs, (ih _).2 ⟨by simp, hp⟩, rfl⟩

theorem segments_nodup (cs : List String) : (segments cs).Nodup := by
  induction cs with
  | nil => exact List.nodup_nil
  | cons x xs ih =>
    rw [segments, List.nodup_cons]
    constructor
    · intro h
      obtain ⟨a, ha, h⟩ := List.mem_map.1 h
      have hne := segments_ne_nil xs a ha
      simp only [List.cons.injEq, true_and] at h
      exact hne h
    · exact ih.map (fun a b h => by simpa using h)

theorem lastWeight_cons (w : String → Nat) (x : String) (s : List String) (h : s ≠ []) :
    lastWeight w (x :: s) = lastWeight w s := by
  cases s with
  | nil => exact absurd rfl h
  | cons y ys => simp only [lastWeight, List.getLast?_cons_cons]

theorem lastWeight_segments_cons (w : String → Nat) (x : String) (l : List (List String))
    (h : ∀ s ∈ l, s ≠ []) :
    ((l.map (fun s => x :: s)).map (lastWeight w)).sum = (l.map (lastWeight w)).sum := by
  rw [List.map_map]
  congr 1
  apply List.map_congr_left
  intro s hs
  exact lastWeight_cons w x s (h s hs)

theorem sum_map_updateNth (f : Node E → Nat) (F : Node E → Node E) (k : Nat)
    (l : List (Node E)) (a : Node E) (d : Nat) (hk : l[k]? = some a) (hF : f (F a) = f a + d) :
    ((updateNth F k l).map f).sum = (l.map f).sum + d := by
  induction l generalizing k with
  | nil => simp at hk
  | cons b bs ih =>
    cases k with
    | zero =>
      simp only [List.getElem?_cons_zero, Option.some.injEq] at hk
      subst hk
      simp only [updateNth, List.map_cons, List.sum_cons, hF]
      omega
    | succ k =>
      simp only [List.getElem?_cons_succ] at hk
      simp only [updateNth, List.map_cons, List.sum_cons, ih k hk]
      omega

theorem measure_chain (f : Node E → Nat) (w : String → Nat)
    (hf : ∀ c e ch, f (Node.mk c e ch) = w c + (ch.map f).sum)
    (e : Option E) (x : String) (xs : List String) :
    f (chain e x xs) = w x + ((segments xs).map (lastWeight w)).sum := by
  induction xs generalizing x with
  | nil => simp [chain, hf, segments]
  | cons y ys ih =>
    rw [chain, hf, List.map_singleton, List.sum_singleton, ih y, segments, List.map_cons,
      List.sum_cons, lastWeight_segments_cons w y _ (segments_ne_nil ys)]
    rfl

/-- An insertion adds to the measure the weights of the last components of the
leading segments that were not yet paths. -/
theorem measure_insertPath (f : Node E → Nat) (w : String → Nat)
    (hf : ∀ c e ch, f (Node.mk c e ch) = w c + (ch.map f).sum)
    (e : Option E) (cs : List String) (n : Node E) :
    f (insertPath e cs n) =
      f n + (((segments cs).filter (fun s => (descend s n).isNone)).map (lastWeight w)).sum := by
  induction cs generalizing n with
  | nil => simp [insertPath, segments]
  | cons x cs ih =>
    cases hl : lookup x n.children with
    | none =>
      have hall : (segments (x :: cs)).filter (fun s => (descend s n).isNone)
          = segments (x :: cs) := by
        rw [List.filter_eq_self]
        intro s hs
        obtain ⟨hne, hp⟩ := (mem_segments _ _).1 hs
        cases s with
        | nil => exact absurd rfl hne
        | cons y ys =>
          rw [List.cons_prefix_cons] at hp
          rw [hp.1, descend_none _ hl]
          rfl
      rw [insertPath_none e cs hl, hall, hf, List.map_append, List.sum_append,
        List.map_singleton, List.sum_singleton, measure_chain f w hf]
      conv_rhs => rw [← mk_eta n, hf]
      rw [segments, List.map_cons, List.sum_cons,
        lastWeight_segments_cons w x _ (segments_ne_nil cs)]
      simp only [lastWeight, List.getLast?_singleton]
      omega
    | some r =>
      obtain ⟨k, child⟩ := r
      have hfil : (segments (x :: cs)).filter (fun s => (descend s n).isNone)
          = ((segments cs).filter (fun s => (descend s child).isNone)).map (fun s => x :: s) := by
        rw [segments, List.filter_cons_of_neg (by rw [descend_some _ hl]; simp [descend]),
          List.filter_map]
        congr 1
        apply List.filter_congr
        intro s _
        simp only [Function.comp_apply, descend_some _ hl]
      rw [insertPath_some e cs hl, hfil, hf,
        sum_map_updateNth f _ k n.children child _ (lookup_some hl).1 (ih child),
        lastWeight_segments_cons w x _ (fun s hs => segments_ne_nil cs s (List.mem_filter.1 hs).1)]
      conv_rhs => rw [← mk_eta n, hf]
      omega

theorem descend_insertPath_isNone (e : Option E) (cs q : List String) (n : Node E) :
    (descend q (insertPath e cs n)).isNone = true ↔
      ((descend q n).isNone = true ∧ ¬ q <+: cs) := by
  have h := descend_insertPath_isSome e cs q n
  cases h1 : descend q (insertPath e cs n) <;> cases h2 : descend q n <;>
    simp only [h1, h2, Option.isSome_none, Option.isSome_some, Option.isNone_none,
      Option.isNone_some, Bool.false_eq_true, false_or, true_or, iff_true, true_iff,
      false_iff, true_and, false_and, not_false_eq_true, not_true_eq_false] at h ⊢
  · exact h
  · exact not_not.2 h

/-- A sequence of insertions adds to the measure the weights of the last
components of the distinct inserted segments that were not yet paths. -/
theorem measure_foldl (f : Node E → Nat) (w : String → Nat)
    (hf : ∀ c e ch, f (Node.mk c e ch) = w c + (ch.map f).sum)
    (ops : List (String × Option E)) (n : Node E) :
    f (ops.foldl (fun t op => insertPath op.2 (components op.1) t) n) =
      f n + ∑ s ∈ (ops.flatMap (fun op => segments (components op.1))).toFinset.filter
        (fun s => (descend s n).isNone = true), lastWeight w s := by
  induction ops generalizing n with
  | nil => simp
  | cons op ops ih =>
    have h1 : (((segments (components op.1)).filter (fun s => (descend s n).isNone)).map
        (lastWeight w)).sum
        = ∑ s ∈ (segments (components op.1)).toFinset.filter
            (fun s => (descend s n).isNone = true), lastWeight w s := by
      rw [← List.sum_toFinset (lastWeight w) ((segments_nodup _).filter _), List.toFinset_filter]
    have hdisj : Disjoint
        ((segments (components op.1)).toFinset.filter (fun s => (descend s n).isNone = true))
        ((ops.flatMap (fun op => segments (components op.1))).toFinset.filter
          (fun s => (descend s (insertPath op.2 (components op.1) n)).isNone = true)) := by
      rw [Finset.disjoint_left]
      intro s hs1 hs2
      simp only [Finset.mem_filter, List.mem_toFinset] at hs1 hs2
      exact ((descend_insertPath_isNone _ _ _ _).1 hs2.2).2 ((mem_segments _ _).1 hs1.1).2
    have hset : (segments (components op.1)).toFinset.filter
          (fun s => (descend s n).isNone = true) ∪
        (ops.flatMap (fun op => segments (components op.1))).toFinset.filter
          (fun s => (descend s (insertPath op.2 (components op.1) n)).isNone = true)
        = ((op :: ops).flatMap (fun op => segments (components op.1))).toFinset.filter
          (fun s => (descend s n).isNone = true) := by
      ext s
      simp only [Finset.mem_union, Finset.mem_filter, List.mem_toFinset, List.flatMap_cons,
        List.mem_append, descend_insertPath_isNone]
      constructor
      · rintro (⟨h, hn⟩ | ⟨h, hn, _⟩)
        · exact ⟨Or.inl h, hn⟩
        · exact ⟨Or.inr h, hn⟩
      · rintro ⟨h | h, hn⟩
        · exact Or.inl ⟨h, hn⟩
        · by_cases hs : s ∈ segments (components op.1)
          · exact Or.inl ⟨hs, hn⟩
          · refine Or.inr ⟨h, hn, fun hp => hs ((mem_segments _ _).2 ⟨?_, hp⟩)⟩
            obtain ⟨op2, _, h2⟩ := List.mem_flatMap.1 h
            exact segments_ne_nil _ _ h2
    rw [List.foldl_cons, ih, measure_insertPath f w hf, h1, Nat.add_assoc,
      ← Finset.sum_union hdisj, hset]

theorem measure_reachable (f : Node E → Nat) (w : String → Nat)
    (hf : ∀ c e ch, f (Node.mk c e ch) = w c + (ch.map f).sum)
    (root : String) (ops : List (String × Option E)) :
    f (ops.foldl (fun t op => insertPath op.2 (components op.1) t) (New root)) =
      w root + ∑ s ∈ (ops.flatMap (fun op => segments (components op.1))).toFinset,
        lastWeight w s := by
  rw [measure_foldl f w hf, Finset.filter_true_of_mem]
  · rw [New, hf]
    simp
  · intro s hs
    rw [List.mem_toFinset] at hs
    obtain ⟨op2, _, h2⟩ := List.mem_flatMap.1 hs
    rw [descend_New root s (segments_ne_nil _ _ h2)]
    rfl

theorem sizeChildren_eq (ch : List (Node E)) : Size.sizeChildren ch = (ch.map Size).sum := by
  induction ch with
  | nil => rfl
  | cons c rest ih => rw [Size.sizeChildren, ih, List.map_cons, List.sum_cons]

theorem Size_mk (c : String) (e : Option E) (ch : List (Node E)) :
    Size (Node.mk c e ch) = (if c ≠ "" then 1 else 0) + (ch.map Size).sum := by
  rw [Size, sizeChildren_eq]

theorem countChildren_eq (ch : List (Node E)) :
    nodeCount.countChildren ch = (ch.map nodeCount).sum := by
  induction ch with
  | nil => rfl
  | cons c rest ih => rw [nodeCount.countChildren, ih, List.map_cons, List.sum_cons]

theorem lastWeight_named (s : List String) (h : s ≠ []) :
    lastWeight (fun c => if c ≠ "" then 1 else 0) s
      = if s.getLast? ≠ some "" then 1 else 0 := by
  unfold lastWeight
  cases hl : s.getLast? with
  | none => exact absurd (List.getLast?_eq_none_iff.1 hl) h
  | some c => simp

theorem lastWeight_one (s : List String) (h : s ≠ []) : lastWeight (fun _ => 1) s = 1 := by
  unfold lastWeight
  cases hl : s.getLast? with
  | none => exact absurd (List.getLast?_eq_none_iff.1 hl) h
  | some c => rfl

theorem mem_insertedSegments_ne_nil (ops : List (String × Option E)) (s : List String)
    (h : s ∈ (ops.flatMap (fun op => segments (components op.1))).toFinset) : s ≠ [] := by
  rw [List.mem_toFinset] at h
  obtain ⟨op2, _, h2⟩ := List.mem_flatMap.1 h
  exact segments_ne_nil _ _ h2

/-! ## The claims -/

/-- C7: `FindLongestMatch` agrees with `FindExactMatch` on exact matches: when
`FindExactMatch name` is `(e, true)`, `FindLongestMatch name` is `(name, e, true)`
with the queried name returned unchanged, and `e` is the entry of the node the
components of the name lead to. -/
theorem FindLongestMatch_of_exact (n : Node E) (name : String) (e : Option E)
    (h : FindExactMatch n name = some (e, true)) :
    FindLongestMatch n name = some (name, e, true) ∧
      ∃ node, descend (components name) n = some node ∧ node.entry = e := by
  have hcs : components name ≠ [] := by
    intro hc
    simp [FindExactMatch, find, hc, walkTree] at h
  constructor
  · unfold FindExactMatch find at h
    unfold FindLongestMatch find
    cases hw : walkTree n (components name) with
    | none => rw [hw] at h; simp at h
    | some w =>
      rw [hw] at h
      by_cases hs : w.sentinel > 0
      · simp only [hs, if_true, Option.map_some', Bool.and_self, Option.some.injEq,
          Prod.mk.injEq, and_true] at h
        simp [hs, h]
      · simp [hs] at h
  · rw [FindExactMatch_eq n name hcs] at h
    cases hd : descend (components name) n with
    | none => rw [hd] at h; simp at h
    | some node =>
      rw [hd] at h
      simp only [Option.some.injEq, Prod.mk.injEq, and_true] at h
      exact ⟨node, rfl, h⟩

theorem FindLongestMatch_of_exact_witness :
    FindLongestMatch (Node.mk "" none [Node.mk "a" (some 1) []]) "/a" = some ("/a", some 1, true) ∧
      ∃ node, descend (components "/a") (Node.mk "" none [Node.mk "a" (some 1) []]) = some node
        ∧ node.entry = some 1 :=
  FindLongestMatch_of_exact (Node.mk "" none [Node.mk "a" (some 1) []]) "/a" (some 1) (by decide)

theorem descend_take_none (cs : List String) (n : Node E) (m j : Nat) (hmj : m ≤ j)
    (h : descend (cs.take m) n = none) : descend (cs.take j) n = none := by
  have : cs.take j = cs.take m ++ (cs.take j).drop m := by
    conv_lhs => rw [← List.take_append_drop m (cs.take j)]
    rw [List.take_take, Nat.min_eq_left hmj]
  rw [this, descend_append, h]
  rfl

/-- C2: when the first `m` components of a name are an existing path and the
first `m + 1` are not, `Insert` appends one chain of `n - m` new nodes to the
children of the node reached by the first `m` components and changes nothing
else; the chain is labelled with the missing components in order, every node of
it carries the payload, and afterwards `FindExactMatch` returns the payload for
the name and for each of the new intermediate prefixes. -/
theorem Insert_creates_missing_chain (t : Node E) (name : String) (p : Option E) (m : Nat)
    (hm : m < (components name).length)
    (hpath : (descend ((components name).take m) t).isSome = true)
    (hmiss : descend ((components name).take (m + 1)) t = none) :
    ∃ base pos x xs,
      descend ((components name).take m) t = some base ∧
      position ((components name).take m) t = some pos ∧
      nodeAt pos t = some base ∧
      (components name).drop m = x :: xs ∧
      xs.length + 1 = (components name).length - m ∧
      Insert t name p = some (appendAt (chain p x xs) pos t) ∧
      nodeCount (appendAt (chain p x xs) pos t) = nodeCount t + ((components name).length - m) ∧
      ∀ q j, m < j → j ≤ (components name).length → components q = (components name).take j →
        FindExactMatch (appendAt (chain p x xs) pos t) q = some (p, true) := by
  obtain ⟨base, hbase⟩ := Option.isSome_iff_exists.1 hpath
  have hp2 : (position ((components name).take m) t).isSome = true := by
    rw [position_isSome]; exact hpath
  obtain ⟨pos, hpos⟩ := Option.isSome_iff_exists.1 hp2
  have hat : nodeAt pos t = some base := by rw [nodeAt_position _ _ _ hpos, hbase]
  cases hdrop : (components name).drop m with
  | nil =>
    have := congrArg List.length hdrop
    simp only [List.length_drop, List.length_nil] at this
    omega
  | cons x xs =>
    have hlen : xs.length + 1 = (components name).length - m := by
      have := congrArg List.length hdrop
      simp only [List.length_drop, List.length_cons] at this
      omega
    have heq := insertPath_eq_appendAt p m (components name) t pos x xs hpos hdrop hmiss
    refine ⟨base, pos, x, xs, hbase, hpos, hat, rfl, hlen, ?_, ?_, ?_⟩
    · rw [Insert_eq, heq]
    · rw [nodeCount_appendAt _ _ _ (by rw [hat]; rfl), nodeCount_chain, hlen]
    · intro q j hmj hj hq
      have hne : components q ≠ [] := by
        intro h0
        have := congrArg List.length hq
        rw [h0, List.length_take] at this
        simp only [List.length_nil] at this
        omega
      rw [FindExactMatch_eq _ q hne, hq, ← heq]
      obtain ⟨node, hn, he⟩ := (descend_insertPath p (components name) ((components name).take j)
        t).2.2.1 (descend_take_none _ _ (m + 1) j hmj hmiss) (List.take_prefix _ _)
      rw [hn]
      show some (node.entry, true) = some (p, true)
      rw [he]

theorem Insert_creates_missing_chain_witness :
    ∃ base pos x xs,
      descend ((components "/x/y/z").take 0) (New "" : Node Nat) = some base ∧
      position ((components "/x/y/z").take 0) (New "" : Node Nat) = some pos ∧
      nodeAt pos (New "" : Node Nat) = some base ∧
      (components "/x/y/z").drop 0 = x :: xs ∧
      xs.length + 1 = (components "/x/y/z").length - 0 ∧
      Insert (New "") "/x/y/z" (some 7) = some (appendAt (chain (some 7) x xs) pos (New "")) ∧
      nodeCount (appendAt (chain (some 7) x xs) pos (New "" : Node Nat))
        = nodeCount (New "" : Node Nat) + ((components "/x/y/z").length - 0) ∧
      ∀ q j, 0 < j → j ≤ (components "/x/y/z").length →
        components q = (components "/x/y/z").take j →
        FindExactMatch (appendAt (chain (some 7) x xs) pos (New "")) q = some (some 7, true) :=
  Insert_creates_missing_chain (New "") "/x/y/z" (some 7) 0 (by decide) (by decide) rfl

/-- C1: on a tree built from `New root` by any sequence of `Insert` calls, and
for a query name that contains a slash, `FindExactMatch` reports found exactly
when the components of the query are a leading segment of the components of
some inserted name; otherwise it returns `(nil, false)`. -/
theorem FindExactMatch_found_iff (root : String) (ops : List (String × Option E))
    (name : String) (h : '/' ∈ name.data) :
    ∃ t, insertAll (New root) ops = some t ∧
      ((∃ e, FindExactMatch t name = some (e, true)) ↔
        ∃ op ∈ ops, components name <+: components op.1) ∧
      ((¬ ∃ op ∈ ops, components name <+: components op.1) →
        FindExactMatch t name = some (none, false)) := by
  obtain ⟨t, ht, hf⟩ := FindExactMatch_insertAll root ops name ((components_ne_nil_iff name).2 h)
  refine ⟨t, ht, ?_, ?_⟩
  · rw [hf]
    cases hfind : ops.find? (fun op => decide (components name <+: components op.1)) with
    | none =>
      have hnone := List.find?_eq_none.1 hfind
      constructor
      · rintro ⟨e, he⟩
        simp at he
      · rintro ⟨op, hop, hp⟩
        exact absurd hp (by simpa using hnone op hop)
    | some op =>
      constructor
      · intro _
        exact ⟨op, List.mem_of_find?_eq_some hfind, by simpa using List.find?_some hfind⟩
      · intro _
        exact ⟨op.2, rfl⟩
  · intro hno
    rw [hf]
    cases hfind : ops.find? (fun op => decide (components name <+: components op.1)) with
    | none => rfl
    | some op =>
      exact absurd ⟨op, List.mem_of_find?_eq_some hfind, by simpa using List.find?_some hfind⟩ hno

theorem FindExactMatch_found_iff_witness :
    ∃ t, insertAll (New "") [("/a", some 1), ("/a/b", some 2), ("/a/c", some 3)] = some t ∧
      (∃ e, FindExactMatch t "/a/b" = some (e, true)) ∧
      FindExactMatch t "/a/x" = some (none, false) := by
  obtain ⟨t, h1, h2, _⟩ := FindExactMatch_found_iff (E := Nat) ""
    [("/a", some 1), ("/a/b", some 2), ("/a/c", some 3)] "/a/b" (by decide)
  obtain ⟨t2, h3, _, h4⟩ := FindExactMatch_found_iff (E := Nat) ""
    [("/a", some 1), ("/a/b", some 2), ("/a/c", some 3)] "/a/x" (by decide)
  have ht : t2 = t := Option.some.inj (h3.symm.trans h1)
  subst ht
  exact ⟨t2, h1, h2.2 (by decide), h4 (by decide)⟩

/-- C3, as stated, fails: after `Insert("/a/b", 1)` and then `Insert("/a", 2)` into
`New("")`, `FindExactMatch("/a")` returns the payload 1 of the other name. -/
theorem FindExactMatch_cross_payload :
    (insertAll (New "" : Node Nat) [("/a/b", some 1), ("/a", some 2)]).bind
        (fun t => FindExactMatch t "/a") = some (some 1, true) ∧
      (insertAll (New "" : Node Nat) [("/a/b", some 1), ("/a", some 2)]).bind
        (fun t => FindExactMatch t "/a") ≠ some (some 2, true) := by
  decide

/-- C3, amended: after inserting `(N1, p1)` and `(N2, p2)` into `New("")`, where
`N1` contains a slash, `FindExactMatch(N1)` returns `(p1, true)` when `N1` is
inserted first, and also when `N2` is inserted first unless the components of
`N1` are a leading segment of the components of `N2`; in that last case it
returns `(p2, true)`. -/
theorem FindExactMatch_two_names (N1 N2 : String) (p1 p2 : Option E) (h : '/' ∈ N1.data) :
    (∃ t, insertAll (New "") [(N1, p1), (N2, p2)] = some t ∧
      FindExactMatch t N1 = some (p1, true)) ∧
    (∃ t, insertAll (New "") [(N2, p2), (N1, p1)] = some t ∧
      FindExactMatch t N1 =
        some (if components N1 <+: components N2 then p2 else p1, true)) := by
  have hne := (components_ne_nil_iff N1).2 h
  constructor
  · obtain ⟨t, ht, hf⟩ := FindExactMatch_insertAll "" [(N1, p1), (N2, p2)] N1 hne
    refine ⟨t, ht, ?_⟩
    rw [hf, List.find?_cons_of_pos _ (by simp)]
  · obtain ⟨t, ht, hf⟩ := FindExactMatch_insertAll "" [(N2, p2), (N1, p1)] N1 hne
    refine ⟨t, ht, ?_⟩
    rw [hf]
    by_cases hp : components N1 <+: components N2
    · rw [List.find?_cons_of_pos _ (by simpa using hp), if_pos hp]
    · rw [List.find?_cons_of_neg _ (by simpa using hp), List.find?_cons_of_pos _ (by simp),
        if_neg hp]

theorem FindExactMatch_two_names_witness :
    (∃ t, insertAll (New "") [("/a/b", some 1), ("/a/c", some 2)] = some t ∧
      FindExactMatch t "/a/b" = some (some 1, true)) ∧
    (∃ t, insertAll (New "") [("/a/c", some 2), ("/a/b", some 1)] = some t ∧
      FindExactMatch t "/a/b" =
        some (if components "/a/b" <+: components "/a/c" then some 2 else some 1, true)) :=
  FindExactMatch_two_names "/a/b" "/a/c" (some 1) (some 2) (by decide)

/-- C4, as stated, fails: on the tree that holds `/a/b` with payload 0,
`Insert("/a", 1)` followed by `Insert("/a", 2)` leaves `FindExactMatch("/a")` at
payload 0, not at the payload 1 of the first of the two insertions. -/
theorem Insert_twice_keeps_older_payload :
    (insertAll (New "" : Node Nat) [("/a/b", some 0), ("/a", some 1), ("/a", some 2)]).bind
        (fun t => FindExactMatch t "/a") = some (some 0, true) ∧
      (insertAll (New "" : Node Nat) [("/a/b", some 0), ("/a", some 1), ("/a", some 2)]).bind
        (fun t => FindExactMatch t "/a") ≠ some (some 1, true) := by
  decide

/-- C4, amended: `Insert` of a name whose components already are a path leaves the
tree unchanged for every payload; `Insert(name, p1)` followed by
`Insert(name, p2)` gives the tree of `Insert(name, p1)` alone; and
`FindExactMatch(name)` is then `(p1, true)` when the name has at least one
component and was not a path before the first of the two calls, and the entry
already stored at the path when it was. -/
theorem Insert_existing_unchanged (t : Node E) (name : String) (p1 p2 : Option E) :
    ((descend (components name) t).isSome = true → ∀ q, Insert t name q = some t) ∧
    ∃ t1, Insert t name p1 = some t1 ∧ Insert t1 name p2 = some t1 ∧
      (components name ≠ [] → descend (components name) t = none →
        FindExactMatch t1 name = some (p1, true)) ∧
      (components name ≠ [] → ∀ node, descend (components name) t = some node →
        t1 = t ∧ FindExactMatch t1 name = some (node.entry, true)) := by
  have hsame : ∀ (u : Node E), (descend (components name) u).isSome = true →
      ∀ q, Insert u name q = some u := by
    intro u hu q
    rw [Insert_eq, insertPath_of_descend q _ u hu]
  refine ⟨hsame t, insertPath p1 (components name) t, Insert_eq _ _ _, ?_, ?_, ?_⟩
  · exact hsame _ ((descend_insertPath_isSome p1 _ _ t).2 (Or.inr (List.prefix_refl _))) p2
  · intro hne hd
    obtain ⟨node, hn, he⟩ :=
      (descend_insertPath p1 (components name) (components name) t).2.2.1 hd (List.prefix_refl _)
    rw [FindExactMatch_eq _ name hne, hn]
    show some (node.entry, true) = some (p1, true)
    rw [he]
  · intro hne node hd
    have ht : insertPath p1 (components name) t = t :=
      insertPath_of_descend p1 _ t (by rw [hd]; rfl)
    rw [ht, FindExactMatch_eq _ name hne, hd]
    exact ⟨rfl, rfl⟩

theorem Insert_existing_unchanged_witness :
    Insert (Node.mk "" none [Node.mk "a" (some 1) []]) "/a" (some 2)
      = some (Node.mk "" none [Node.mk "a" (some 1) []]) :=
  (Insert_existing_unchanged (Node.mk "" none [Node.mk "a" (some 1) []]) "/a" (some 2)
    (some 3)).1 rfl (some 2)

/-- C9: `Insert` only appends: every node present before the call is at the same
position afterwards with the same label and the same entry, the labels and
entries of its children before are a leading segment of those after, and every
query that `FindExactMatch` found before is found afterwards with the same
entry. -/
theorem Insert_only_appends (t : Node E) (name : String) (p : Option E) :
    ∃ t2, Insert t name p = some t2 ∧
      (∀ pos node, nodeAt pos t = some node →
        ∃ node2, nodeAt pos t2 = some node2 ∧
          node2.component = node.component ∧ node2.entry = node.entry ∧
          node.children.map (fun c => (c.component, c.entry))
            <+: node2.children.map (fun c => (c.component, c.entry))) ∧
      (∀ q e, FindExactMatch t q = some (e, true) → FindExactMatch t2 q = some (e, true)) := by
  refine ⟨insertPath p (components name) t, Insert_eq _ _ _, ?_, ?_⟩
  · exact fun pos node h => nodeAt_insertPath p (components name) t pos node h
  · intro q e h
    have hcs : components q ≠ [] := by
      intro hc
      simp [FindExactMatch, find, hc, walkTree] at h
    rw [FindExactMatch_eq t q hcs] at h
    rw [FindExactMatch_eq _ q hcs]
    cases hd : descend (components q) t with
    | none => rw [hd] at h; simp at h
    | some node =>
      rw [hd] at h
      simp only [Option.some.injEq, Prod.mk.injEq, and_true] at h
      obtain ⟨n2, h2, he2, _⟩ := descend_insertPath_entry p (components name) _ t node hd
      rw [h2]
      show some (n2.entry, true) = some (e, true)
      rw [he2, h]

theorem Insert_only_appends_witness :
    ∃ t2, Insert (Node.mk "" none [Node.mk "a" (some 1) []]) "/a/b" (some 2) = some t2 ∧
      FindExactMatch t2 "/a" = some (some 1, true) := by
  obtain ⟨t2, h1, _, h3⟩ :=
    Insert_only_appends (Node.mk "" none [Node.mk "a" (some 1) []]) "/a/b" (some 2)
  exact ⟨t2, h1, h3 "/a" (some 1) (by decide)⟩

/-- C10: sibling-label uniqueness is an invariant of every reachable tree: in a
tree built from `New root` by any sequence of `Insert` calls, whatever the names,
no node has two children with the same component label. -/
theorem SiblingUnique_reachable (root : String) (ops : List (String × Option E)) :
    ∃ t, insertAll (New root) ops = some t ∧ SiblingUnique t :=
  ⟨_, insertAll_eq _ ops, SiblingUnique_foldl ops _ (SiblingUnique_New root)⟩

/-- C8: on a tree built from `New root` by a sequence of `Insert` calls, `Size` is
one when the root label is non-empty, plus the number of distinct non-empty
leading component segments of the inserted names whose last component is
non-empty; the tree has one node for the root and one for each distinct segment;
and with an empty root label and no empty component `Size` is the number of
distinct segments, each created node counted once. -/
theorem Size_reachable (root : String) (ops : List (String × Option E)) :
    ∃ t, insertAll (New root) ops = some t ∧
      Size t = (if root ≠ "" then 1 else 0) +
        ((insertedSegments ops).filter (fun s => decide (s.getLast? ≠ some ""))).length ∧
      nodeCount t = 1 + (insertedSegments ops).length ∧
      (root = "" → (∀ op ∈ ops, "" ∉ components op.1) →
        Size t = (insertedSegments ops).length) := by
  have hsize : Size (ops.foldl (fun t op => insertPath op.2 (components op.1) t)
      (New root : Node E)) = (if root ≠ "" then 1 else 0) +
        ((insertedSegments ops).filter (fun s => decide (s.getLast? ≠ some ""))).length := by
    rw [measure_reachable Size (fun c => if c ≠ "" then 1 else 0) Size_mk root ops]
    congr 1
    rw [Finset.sum_congr rfl (fun s hs =>
      lastWeight_named s (mem_insertedSegments_ne_nil ops s hs)), Finset.sum_boole]
    simp only [Nat.cast_id, insertedSegments]
    rw [← List.toFinset_card_of_nodup ((List.nodup_dedup _).filter _), List.toFinset_filter]
    congr 1
    ext s
    simp
  refine ⟨_, insertAll_eq _ ops, hsize, ?_, ?_⟩
  · rw [measure_reachable nodeCount (fun _ => 1)
      (fun c e ch => by rw [nodeCount_mk, countChildren_eq]) root ops]
    congr 1
    rw [Finset.sum_congr rfl (fun s hs =>
      lastWeight_one s (mem_insertedSegments_ne_nil ops s hs))]
    simp [insertedSegments, List.card_toFinset]
  · intro hroot hops
    rw [hsize, if_neg (by simp [hroot]), Nat.zero_add, List.filter_eq_self.2]
    intro s hs
    simp only [insertedSegments, List.mem_dedup] at hs
    obtain ⟨op, hop, h2⟩ := List.mem_flatMap.1 hs
    have hpre := ((mem_segments _ _).1 h2).2
    simp only [ne_eq, decide_not, Bool.not_eq_eq_eq_not, Bool.not_true, decide_eq_false_iff_not]
    intro hlast
    have hmem : "" ∈ s := List.mem_of_getLast?_eq_some hlast
    exact hops op hop (hpre.subset hmem)

theorem Size_reachable_witness :
    ∃ t, insertAll (New "") [("/a", some 1), ("/a/b", some 2), ("/a/c", some 3)] = some t ∧
      Size t = 3 ∧ nodeCount t = 4 := by
  obtain ⟨t, h1, _, h3, h4⟩ :=
    Size_reachable "" [("/a", some 1), ("/a/b", some 2), ("/a/c", some 3)]
  exact ⟨t, h1, (h4 rfl (by decide)).trans (by decide), h3.trans (by decide)⟩

/-- C5, failing input: on the tree that holds only `/a`, the query `/a/b/a` is
matched for its first component only, the longest leading segment that is a
path joins to `a`, and `FindLongestMatch` returns the string `a/b/a`. -/
theorem FindLongestMatch_repeated_label :
    (insertAll (New "" : Node Nat) [("/a", some 1)]).bind
        (fun t => FindLongestMatch t "/a/b/a") = some ("a/b/a", some 1, true) ∧
      (insertAll (New "" : Node Nat) [("/a", some 1)]).bind
        (fun t => (descend ((components "/a/b/a").take 1) t).map Node.entry) = some (some 1) ∧
      (insertAll (New "" : Node Nat) [("/a", some 1)]).bind
        (fun t => (descend ((components "/a/b/a").take 2) t).map Node.entry) = none ∧
      joinSlash ((components "/a/b/a").take 1) = "a" := by
  decide

/-- C6, failing input: on `New("")` with nothing inserted no leading segment of
`/a/b` is a path, and `FindLongestMatch("/a/b")` returns found = true, with the
string `a` and the nil entry of the root. -/
theorem FindLongestMatch_found_without_match :
    FindLongestMatch (New "" : Node Nat) "/a/b" = some ("a", none, true) ∧
      (descend ((components "/a/b").take 1) (New "" : Node Nat)).isSome = false ∧
      (descend ((components "/a/b").take 2) (New "" : Node Nat)).isSome = false := by
  decide

/-! ## The traversal contract -/

/-- The traversal on a sequence whose first `m` components are a path and whose
next component is missing: the node reached, its position, the first unmatched
component and a zero sentinel. -/
theorem walkTree_at (cs : List String) (n node : Node E) (m : Nat) (hm : m < cs.length)
    (hpath : descend (cs.take m) n = some node)
    (hmiss : descend (cs.take (m + 1)) n = none) :
    ∃ pos c, position (cs.take m) n = some pos ∧ cs[m]? = some c ∧
      lookup c node.children = none ∧ walkTree n cs = some ⟨node, pos, c, 0⟩ := by
  induction m generalizing cs n with
  | zero =>
    cases cs with
    | nil => simp at hm
    | cons x xs =>
      simp only [List.take_zero, descend, Option.some.injEq] at hpath
      subst hpath
      cases hl : lookup x n.children with
      | none => exact ⟨[], x, rfl, by simp, hl, walkTree_none xs hl⟩
      | some r =>
        obtain ⟨k, child⟩ := r
        rw [List.take_succ_cons, descend_some _ hl] at hmiss
        simp [descend] at hmiss
  | succ m ih =>
    cases cs with
    | nil => simp at hm
    | cons x xs =>
      rw [List.take_succ_cons] at hpath hmiss
      simp only [List.length_cons, Nat.add_lt_add_iff_right] at hm
      cases hl : lookup x n.children with
      | none => rw [descend_none _ hl] at hpath; simp at hpath
      | some r =>
        obtain ⟨k, child⟩ := r
        rw [descend_some _ hl] at hpath hmiss
        obtain ⟨pos, c, hpos, hc, hlc, hw⟩ := ih xs child hm hpath hmiss
        cases xs with
        | nil => simp at hm
        | cons y ys =>
          refine ⟨k :: pos, c, ?_, by simpa using hc, hlc, ?_⟩
          · rw [List.take_succ_cons, position_some _ hl, hpos]; rfl
          · rw [walkTree_more y ys hl, hw]; rfl

/-- The traversal on a sequence that is a path: the node reached, the last
component, and the children count of the parent of the node reached, which is
positive. -/
theorem walkTree_full (cs : List String) (n node : Node E) (hcs : cs ≠ [])
    (hpath : descend cs n = some node) :
    ∃ pos parent, position cs n = some pos ∧ descend cs.dropLast n = some parent ∧
      0 < parent.children.length ∧
      walkTree n cs = some ⟨node, pos, cs.getLast hcs, parent.children.length⟩ := by
  induction cs generalizing n with
  | nil => exact absurd rfl hcs
  | cons x xs ih =>
    cases hl : lookup x n.children with
    | none => rw [descend_none _ hl] at hpath; simp at hpath
    | some r =>
      obtain ⟨k, child⟩ := r
      rw [descend_some _ hl] at hpath
      cases xs with
      | nil =>
        simp only [descend, Option.some.injEq] at hpath
        subst hpath
        exact ⟨[k], n, by rw [position_some _ hl]; rfl, rfl, lookup_length_pos hl,
          walkTree_last hl⟩
      | cons y ys =>
        obtain ⟨pos, parent, hpos, hpar, hlen, hw⟩ := ih child (by simp) hpath
        refine ⟨k :: pos, parent, ?_, ?_, hlen, ?_⟩
        · rw [position_some _ hl, hpos]; rfl
        · rw [List.dropLast_cons₂, descend_some _ hl]; exact hpar
        · rw [List.getLast_cons (List.cons_ne_nil y ys), walkTree_more y ys hl, hw]; rfl

/-- The label of the node a non-empty descent reaches is its last component. -/
theorem descend_component (q : List String) (n node : Node E) (hq : q ≠ [])
    (h : descend q n = some node) : node.component = q.getLast hq := by
  induction q generalizing n with
  | nil => exact absurd rfl hq
  | cons x xs ih =>
    cases hl : lookup x n.children with
    | none => rw [descend_none _ hl] at h; simp at h
    | some r =>
      obtain ⟨k, child⟩ := r
      rw [descend_some _ hl] at h
      cases xs with
      | nil =>
        simp only [descend, Option.some.injEq] at h
        subst h
        exact (lookup_some hl).2
      | cons y ys =>
        rw [List.getLast_cons (List.cons_ne_nil y ys)]
        exact ih child (by simp) h

/-- The matched depth: the first `length - missing` components are a path and,
when something is missing, one component more is not. -/
theorem descend_take_matched (cs : List String) (n : Node E) :
    (descend (cs.take (cs.length - missing cs n)) n).isSome = true ∧
      (0 < missing cs n → descend (cs.take (cs.length - missing cs n + 1)) n = none) := by
  induction cs generalizing n with
  | nil => exact ⟨rfl, fun h => by simp [missing] at h⟩
  | cons x xs ih =>
    cases hl : lookup x n.children with
    | none =>
      rw [missing_none xs hl]
      simp only [List.length_cons, Nat.sub_self, List.take_zero, descend, Option.isSome_some,
        Nat.zero_add, List.take_succ_cons, hl, true_and]
      intro _
      trivial
    | some r =>
      obtain ⟨k, child⟩ := r
      have hle := missing_le xs child
      rw [missing_some xs hl]
      have h1 : (x :: xs).length - missing xs child = (xs.length - missing xs child) + 1 := by
        simp only [List.length_cons]; omega
      rw [h1, List.take_succ_cons, List.take_succ_cons, descend_some _ hl, descend_some _ hl]
      exact ih child

/-! ## The index loop of `find` -/

theorem foldl_index_none (label : String) (l : List String) (s i0 : Nat)
    (h : ∀ c ∈ l, c ≠ label) :
    (l.enumFrom s).foldl (fun index kc => if kc.2 = label then kc.1 else index) i0 = i0 := by
  induction l generalizing s i0 with
  | nil => rfl
  | cons a as ih =>
    rw [List.enumFrom_cons, List.foldl_cons, if_neg (h a (List.mem_cons_self _ _))]
    exact ih (s + 1) i0 (fun c hc => h c (List.mem_cons_of_mem _ hc))

theorem foldl_index_bound (label : String) (l : List String) (s i0 : Nat) :
    (l.enumFrom s).foldl (fun index kc => if kc.2 = label then kc.1 else index) i0 = i0 ∨
      (s ≤ (l.enumFrom s).foldl (fun index kc => if kc.2 = label then kc.1 else index) i0 ∧
        (l.enumFrom s).foldl (fun index kc => if kc.2 = label then kc.1 else index) i0
          < s + l.length) := by
  induction l generalizing s i0 with
  | nil => exact Or.inl rfl
  | cons a as ih =>
    rw [List.enumFrom_cons, List.foldl_cons]
    dsimp only
    rcases ih (s + 1) (if a = label then s else i0) with h | ⟨h1, h2⟩
    · rw [h]
      by_cases ha : a = label
      · simp only [ha, if_true, List.length_cons]
        exact Or.inr ⟨Nat.le_refl _, by omega⟩
      · simp only [ha, if_false]
        exact Or.inl trivial
    · exact Or.inr ⟨by omega, by simp only [List.length_cons]; omega⟩

/-- The index loop returns the position of the last occurrence of the label. -/
theorem lastIndex_last (label : String) (pre post : List String)
    (h : ∀ c ∈ post, c ≠ label) : lastIndex label (pre ++ label :: post) = pre.length := by
  unfold lastIndex
  rw [List.enum_append, List.foldl_append, List.enumFrom_cons, List.foldl_cons, if_pos rfl]
  exact foldl_index_none label post _ _ h

/-- The slice `components[:index+1]` of `find` is within bounds. -/
theorem lastIndex_lt (label : String) (cs : List String) (hcs : cs ≠ []) :
    lastIndex label cs < cs.length := by
  have hpos : 0 < cs.length := List.length_pos.2 hcs
  rcases foldl_index_bound label cs 0 0 with h | ⟨_, h⟩
  · unfold lastIndex List.enum
    rw [h]; exact hpos
  · unfold lastIndex List.enum
    omega

theorem descend_take_label (cs : List String) (n node : Node E) (m : Nat)
    (hm : m < cs.length) (h : descend (cs.take (m + 1)) n = some node) :
    cs[m]? = some node.component := by
  have hne : cs.take (m + 1) ≠ [] := by
    intro h0
    have := congrArg List.length h0
    rw [List.length_take] at this
    simp only [List.length_nil] at this
    omega
  rw [descend_component _ n node hne h, List.getLast_take, Nat.add_sub_cancel,
    List.getElem?_eq_getElem hm]
  rfl

theorem FindLongestMatch_of_walk (t : Node E) (name : String) (w : Walk E)
    (hw : walkTree t (components name) = some w) (hs : w.sentinel = 0) :
    FindLongestMatch t name =
      some (joinSlash ((components name).take (lastIndex w.node.component (components name) + 1)),
        w.node.entry, true) := by
  unfold FindLongestMatch find
  rw [hw]
  simp [hs]

theorem FindLongestMatch_of_walk_full (t : Node E) (name : String) (w : Walk E)
    (hw : walkTree t (components name) = some w) (hs : 0 < w.sentinel) :
    FindLongestMatch t name = some (name, w.node.entry, true) := by
  unfold FindLongestMatch find
  rw [hw]
  simp [hs]

/-! ## The claims on the traversal and on totality -/

/-- C19: `walkTree` meets its traversal contract.  For a node `n`, a non-empty
sequence `cs` and the length `m` of the longest leading segment of `cs` that the
first-match descent can follow from `n` (reaching `node`): the traversal returns
`node` at its position; when `m` is the whole length it returns the last
component and a positive sentinel, the children count of the parent of `node`;
when `m` is smaller it returns the component `cs[m]` and sentinel 0.  So the
sentinel is positive exactly when the whole sequence was consumed. -/
theorem walkTree_contract (n node : Node E) (cs : List String) (m : Nat) (hcs : cs ≠ [])
    (hm : m ≤ cs.length) (hpath : descend (cs.take m) n = some node)
    (hmax : m < cs.length → descend (cs.take (m + 1)) n = none) :
    ∃ w, walkTree n cs = some w ∧ w.node = node ∧ position (cs.take m) n = some w.path ∧
      (m = 0 → w.node = n) ∧
      (m = cs.length → w.component = cs.getLast hcs ∧ 0 < w.sentinel ∧
        ∃ parent, descend cs.dropLast n = some parent ∧
          w.sentinel = parent.children.length) ∧
      (m < cs.length → cs[m]? = some w.component ∧ w.sentinel = 0) ∧
      (0 < w.sentinel ↔ m = cs.length) := by
  have h0 : m = 0 → node = n := by
    intro hz
    subst hz
    simp only [List.take_zero, descend, Option.some.injEq] at hpath
    exact hpath.symm
  rcases Nat.lt_or_ge m cs.length with hlt | hge
  · obtain ⟨pos, c, hpos, hc, _, hw⟩ := walkTree_at cs n node m hlt hpath (hmax hlt)
    refine ⟨_, hw, rfl, hpos, h0, fun h => by omega, fun _ => ⟨hc, rfl⟩, ?_⟩
    constructor
    · intro h
      exact absurd h (Nat.lt_irrefl 0)
    · intro h
      omega
  · have hmeq : m = cs.length := Nat.le_antisymm hm hge
    subst hmeq
    rw [List.take_length] at hpath
    obtain ⟨pos, parent, hpos, hpar, hlen, hw⟩ := walkTree_full cs n node hcs hpath
    refine ⟨_, hw, rfl, by rw [List.take_length]; exact hpos, h0,
      fun _ => ⟨rfl, hlen, parent, hpar, rfl⟩, fun h => by omega, ?_⟩
    exact ⟨fun _ => rfl, fun _ => hlen⟩

theorem walkTree_contract_witness :
    ∃ w, walkTree (Node.mk "" none [Node.mk "a" (some 1) [Node.mk "b" (some 2) []]])
        ["a", "b", "d"] = some w ∧
      w.node = Node.mk "b" (some 2) [] ∧
      position (["a", "b", "d"].take 2)
        (Node.mk "" none [Node.mk "a" (some 1) [Node.mk "b" (some 2) []]]) = some w.path ∧
      (2 = 0 → w.node = Node.mk "" none [Node.mk "a" (some 1) [Node.mk "b" (some 2) []]]) ∧
      (2 = ["a", "b", "d"].length → w.component = ["a", "b", "d"].getLast (by simp) ∧
        0 < w.sentinel ∧
        ∃ parent, descend ["a", "b", "d"].dropLast
            (Node.mk "" none [Node.mk "a" (some 1) [Node.mk "b" (some 2) []]]) = some parent ∧
          w.sentinel = parent.children.length) ∧
      (2 < ["a", "b", "d"].length → ["a", "b", "d"][2]? = some w.component ∧ w.sentinel = 0) ∧
      (0 < w.sentinel ↔ 2 = ["a", "b", "d"].length) :=
  walkTree_contract (Node.mk "" none [Node.mk "a" (some 1) [Node.mk "b" (some 2) []]])
    (Node.mk "b" (some 2) []) ["a", "b", "d"] 2 (by simp) (by decide) rfl (fun _ => rfl)

/-- C13: for every tree and every query with at least one component, the entry
returned by `FindLongestMatch` is the entry of the node at the end of the longest
leading segment of the query components that is a path from the root (the root
itself, with its own entry, when that segment is empty), whatever string is
returned with it; and found is true. -/
theorem FindLongestMatch_entry (t : Node E) (name : String) (h : components name ≠ []) :
    ∃ m node longest, m ≤ (components name).length ∧
      descend ((components name).take m) t = some node ∧
      (∀ j, m < j → j ≤ (components name).length →
        descend ((components name).take j) t = none) ∧
      (m = 0 → node = t) ∧
      FindLongestMatch t name = some (longest, node.entry, true) := by
  obtain ⟨hsome, hnone⟩ := descend_take_matched (components name) t
  obtain ⟨node, hnode⟩ := Option.isSome_iff_exists.1 hsome
  have hle := missing_le (components name) t
  have h0 : (components name).length - missing (components name) t = 0 → node = t := by
    intro hz
    rw [hz] at hnode
    simp only [List.take_zero, descend, Option.some.injEq] at hnode
    exact hnode.symm
  rcases Nat.eq_zero_or_pos (missing (components name) t) with hz | hpos
  · refine ⟨_, node, name, Nat.sub_le _ _, hnode, fun j h1 h2 => by omega, h0, ?_⟩
    rw [hz, Nat.sub_zero, List.take_length] at hnode
    obtain ⟨pos, parent, _, _, hlen, hw⟩ := walkTree_full _ t node h hnode
    exact FindLongestMatch_of_walk_full t name _ hw hlen
  · obtain ⟨pos, c, _, _, _, hw⟩ :=
      walkTree_at (components name) t node _ (by omega) hnode (hnone hpos)
    exact ⟨_, node, _, Nat.sub_le _ _, hnode,
      fun j h1 _ => descend_take_none _ t _ j h1 (hnone hpos), h0,
      FindLongestMatch_of_walk t name _ hw rfl⟩

theorem FindLongestMatch_entry_witness :
    ∃ m node longest, m ≤ (components "/a/b/a").length ∧
      descend ((components "/a/b/a").take m) (Node.mk "" none [Node.mk "a" (some 1) []])
        = some node ∧
      (∀ j, m < j → j ≤ (components "/a/b/a").length →
        descend ((components "/a/b/a").take j) (Node.mk "" none [Node.mk "a" (some 1) []])
          = none) ∧
      (m = 0 → node = Node.mk "" none [Node.mk "a" (some 1) []]) ∧
      FindLongestMatch (Node.mk "" none [Node.mk "a" (some 1) []]) "/a/b/a"
        = some (longest, node.entry, true) :=
  FindLongestMatch_entry (Node.mk "" none [Node.mk "a" (some 1) []]) "/a/b/a" (by decide)

/-- C12: on a tree with unique sibling labels, for a query whose first `m`
components are an existing path (`1 ≤ m < n`) and whose first `m + 1` are not,
if the label `c (m-1)` does not occur at any later index of the query, then
`FindLongestMatch` returns the first `m` components joined by slashes (no
leading slash), the entry of the node at that path, and found = true. -/
theorem FindLongestMatch_segment (t node : Node E) (name : String) (m : Nat)
    (hu : SiblingUnique t) (h1 : 1 ≤ m) (hm : m < (components name).length)
    (hpath : Reaches t ((components name).take m) node)
    (hmiss : ¬ ∃ node2, Reaches t ((components name).take (m + 1)) node2)
    (hrep : ∀ j, m ≤ j → (components name)[j]? ≠ (components name)[m - 1]?) :
    FindLongestMatch t name = some (joinSlash ((components name).take m), node.entry, true) := by
  have hd : descend ((components name).take m) t = some node :=
    descend_of_Reaches _ t node hu hpath
  have hn : descend ((components name).take (m + 1)) t = none := by
    cases hx : descend ((components name).take (m + 1)) t with
    | none => rfl
    | some node2 => exact absurd ⟨node2, Reaches_of_descend _ t node2 hx⟩ hmiss
  obtain ⟨pos, c, _, _, _, hw⟩ := walkTree_at (components name) t node m hm hd hn
  rw [FindLongestMatch_of_walk t name _ hw rfl]
  obtain ⟨k, rfl⟩ : ∃ k, m = k + 1 := ⟨m - 1, by omega⟩
  have hk : k < (components name).length := by omega
  have hlab : (components name)[k]? = some node.component :=
    descend_take_label (components name) t node k hk hd
  have hsplit : components name =
      (components name).take k ++ node.component :: (components name).drop (k + 1) := by
    conv_lhs => rw [← List.take_append_drop k (components name), List.drop_eq_getElem_cons hk]
    rw [List.getElem?_eq_getElem hk] at hlab
    rw [Option.some.inj hlab]
  have hlast : lastIndex node.component (components name) = k := by
    conv_lhs => rw [hsplit]
    rw [lastIndex_last]
    · rw [List.length_take]; omega
    · intro c2 hc2 heq
      obtain ⟨i, hi⟩ := List.mem_iff_getElem?.1 hc2
      rw [List.getElem?_drop] at hi
      apply hrep (k + 1 + i) (by omega)
      rw [hi, Nat.add_sub_cancel, hlab, heq]
  show some (joinSlash ((components name).take (lastIndex node.component (components name) + 1)),
    node.entry, true) = _
  rw [hlast]

theorem FindLongestMatch_segment_witness :
    FindLongestMatch
        ([("/a", some 1), ("/a/b", some 2), ("/a/c", some 3)].foldl
          (fun t op => insertPath op.2 (components op.1) t) (New ""))
        "/a/b/d"
      = some ("a/b", some 2, true) := by
  have hd : descend ((components "/a/b/d").take 2)
      ([("/a", some 1), ("/a/b", some 2), ("/a/c", some 3)].foldl
        (fun t op => insertPath op.2 (components op.1) t) (New "") : Node Nat) = some (Node.mk "b" (some 2) []) := rfl
  have hn : descend ((components "/a/b/d").take (2 + 1))
      ([("/a", some 1), ("/a/b", some 2), ("/a/c", some 3)].foldl
        (fun t op => insertPath op.2 (components op.1) t) (New "") : Node Nat) = none := rfl
  have hu : SiblingUnique
      ([("/a", some 1), ("/a/b", some 2), ("/a/c", some 3)].foldl
        (fun t op => insertPath op.2 (components op.1) t) (New "") : Node Nat) := SiblingUnique_foldl _ _ (SiblingUnique_New "")
  have hrep : ∀ j, 2 ≤ j → (components "/a/b/d")[j]? ≠ (components "/a/b/d")[2 - 1]? := by
    intro j hj
    have hc : components "/a/b/d" = ["a", "b", "d"] := by decide
    rw [hc]
    match j, hj with
    | 2, _ => decide
    | k + 3, _ => simp
  exact (FindLongestMatch_segment _ _ "/a/b/d" 2 hu (by decide) (by decide)
    (Reaches_of_descend _ _ _ hd)
    (fun h => by
      obtain ⟨node2, h2⟩ := h
      have h3 := descend_of_Reaches _ _ node2 hu h2
      rw [hn] at h3
      cases h3)
    hrep).trans (by decide)

/-- C16: when the name contains a slash, `FindExactMatch`, `FindLongestMatch` and
`Insert` return on every tree: the component sequence is non-empty, `walkTree`
returns on every non-empty sequence (and fails only on the empty one), the slice
bound `index + 1` of `find` is within the length of the components, and the loop
of `Insert` needs no more iterations than there are missing components, which
are at most `len(components)`. -/
theorem total_of_slash (t : Node E) (name : String) (p : Option E) (h : '/' ∈ name.data) :
    (FindExactMatch t name).isSome = true ∧ (FindLongestMatch t name).isSome = true ∧
      (Insert t name p).isSome = true ∧
      components name ≠ [] ∧
      (∀ (n : Node E) cs, (walkTree n cs).isSome = true ↔ cs ≠ []) ∧
      (∀ label, lastIndex label (components name) + 1 ≤ (components name).length) ∧
      missing (components name) t ≤ (components name).length ∧
      (∀ count, missing (components name) t ≤ count →
        insertLoop (components name) p count t = Insert t name p) := by
  have hne := (components_ne_nil_iff name).2 h
  have hwalk : ∀ (n : Node E) cs, (walkTree n cs).isSome = true ↔ cs ≠ [] := by
    intro n cs
    constructor
    · intro hs hc
      rw [hc] at hs
      simp [walkTree] at hs
    · intro hc
      obtain ⟨w, hw, _⟩ := walkTree_descend cs n hc
      rw [hw]; rfl
  refine ⟨?_, ?_, by rw [Insert_eq]; rfl, hne, hwalk, fun label => lastIndex_lt label _ hne,
    missing_le _ _, fun count hc => by rw [Insert_eq, insertLoop_eq p _ hne count t hc]⟩
  · rw [FindExactMatch_eq t name hne]; rfl
  · obtain ⟨w, hw⟩ := Option.isSome_iff_exists.1 ((hwalk t (components name)).2 hne)
    unfold FindLongestMatch find
    rw [hw]
    by_cases hs : w.sentinel > 0 <;> simp [hs]

theorem total_of_slash_witness :
    (FindExactMatch (New "" : Node Nat) "//x/").isSome = true ∧
      (FindLongestMatch (New "" : Node Nat) "//x/").isSome = true ∧
      (Insert (New "" : Node Nat) "//x/" (some 1)).isSome = true ∧
      components "//x/" ≠ [] ∧
      (∀ (n : Node Nat) cs, (walkTree n cs).isSome = true ↔ cs ≠ []) ∧
      (∀ label, lastIndex label (components "//x/") + 1 ≤ (components "//x/").length) ∧
      missing (components "//x/") (New "" : Node Nat) ≤ (components "//x/").length ∧
      (∀ count, missing (components "//x/") (New "" : Node Nat) ≤ count →
        insertLoop (components "//x/") (some 1) count (New "")
          = Insert (New "") "//x/" (some 1)) :=
  total_of_slash (New "") "//x/" (some 1) (by decide)

/-- C11, failing input: `FindExactMatch` and `FindLongestMatch` on a name without a
slash index the empty component sequence and fail (the empty string and `a`, on
an empty and on a non-empty tree); `Insert` of the same names returns. -/
theorem find_fails_without_slash :
    FindExactMatch (New "" : Node Nat) "" = none ∧
      FindLongestMatch (New "" : Node Nat) "" = none ∧
      FindExactMatch (Node.mk "" none [Node.mk "a" (some 1) []]) "a" = none ∧
      FindLongestMatch (Node.mk "" none [Node.mk "a" (some 1) []]) "a" = none ∧
      (Insert (New "" : Node Nat) "" (some 1)).isSome = true ∧
      (Insert (Node.mk "" none [Node.mk "a" (some 1) []]) "a" (some 1)).isSome = true := by
  decide

/-! ## Names and root labels -/

theorem splitSlash_append_slash (l r : List Char) (h : '/' ∉ l) :
    splitSlash (l ++ '/' :: r) = l :: splitSlash r := by
  induction l with
  | nil => simp [splitSlash]
  | cons c cs ih =>
    have hc : c ≠ '/' := fun e => h (e ▸ List.mem_cons_self _ _)
    have hcs : '/' ∉ cs := fun e => h (List.mem_cons_of_mem _ e)
    rw [List.cons_append, splitSlash, if_neg hc, ih hcs]

theorem components_append_slash (s u : String) (h : '/' ∉ s.data) :
    components (s ++ "/" ++ u) = (splitSlash u.data).map String.mk := by
  unfold components
  have hd : (s ++ "/" ++ u).data = s.data ++ '/' :: u.data := by
    rw [String.data_append, String.data_append]
    show (s.data ++ ['/']) ++ u.data = _
    rw [List.append_assoc]
    rfl
  rw [hd, splitSlash_append_slash _ _ h]
  rfl

theorem components_of_no_slash (name : String) (h : '/' ∉ name.data) : components name = [] := by
  by_contra hne
  exact h ((components_ne_nil_iff name).1 hne)

theorem FindExactMatch_congr (t : Node E) (n1 n2 : String)
    (h : components n1 = components n2) : FindExactMatch t n1 = FindExactMatch t n2 := by
  unfold FindExactMatch find
  rw [h]
  cases walkTree t (components n2) with
  | none => rfl
  | some w => by_cases hs : w.sentinel > 0 <;> simp [hs]

theorem insertPath_children (e : Option E) (cs : List String) (t1 t2 : Node E)
    (h : t1.children = t2.children) :
    (insertPath e cs t1).children = (insertPath e cs t2).children := by
  cases cs with
  | nil => exact h
  | cons x xs =>
    cases hl : lookup x t2.children with
    | none =>
      rw [insertPath_none e xs hl, insertPath_none e xs (h ▸ hl), children_mk, children_mk, h]
    | some r =>
      obtain ⟨k, child⟩ := r
      rw [insertPath_some e xs hl, insertPath_some e xs (h ▸ hl), children_mk, children_mk, h]

theorem foldl_insertPath_root (ops : List (String × Option E)) (t1 t2 : Node E)
    (he : t1.entry = t2.entry) (hc : t1.children = t2.children) :
    (ops.foldl (fun t op => insertPath op.2 (components op.1) t) t1).component = t1.component ∧
    (ops.foldl (fun t op => insertPath op.2 (components op.1) t) t1).entry =
      (ops.foldl (fun t op => insertPath op.2 (components op.1) t) t2).entry ∧
    (ops.foldl (fun t op => insertPath op.2 (components op.1) t) t1).children =
      (ops.foldl (fun t op => insertPath op.2 (components op.1) t) t2).children := by
  induction ops generalizing t1 t2 with
  | nil => exact ⟨rfl, he, hc⟩
  | cons op ops ih =>
    simp only [List.foldl_cons]
    obtain ⟨h1, h2, h3⟩ := ih (insertPath op.2 (components op.1) t1)
      (insertPath op.2 (components op.1) t2)
      (by rw [insertPath_entry, insertPath_entry, he])
      (insertPath_children _ _ t1 t2 hc)
    exact ⟨by rw [h1, insertPath_component], h2, h3⟩

theorem descend_of_children (cs : List String) (t1 t2 : Node E)
    (hc : t1.children = t2.children) (hcs : cs ≠ []) : descend cs t1 = descend cs t2 := by
  cases cs with
  | nil => exact absurd rfl hcs
  | cons x xs =>
    cases hl : lookup x t2.children with
    | none => rw [descend_none xs hl, descend_none xs (hc ▸ hl)]
    | some r =>
      obtain ⟨k, child⟩ := r
      rw [descend_some xs hl, descend_some xs (hc ▸ hl)]

theorem FindExactMatch_of_children (t1 t2 : Node E) (name : String)
    (hc : t1.children = t2.children) : FindExactMatch t1 name = FindExactMatch t2 name := by
  by_cases hcs : components name = []
  · unfold FindExactMatch find
    rw [hcs]
    rfl
  · rw [FindExactMatch_eq t1 name hcs, FindExactMatch_eq t2 name hcs,
      descend_of_children _ t1 t2 hc hcs]

theorem walkTree_of_children (cs : List String) (t1 t2 : Node E)
    (he : t1.entry = t2.entry) (hc : t1.children = t2.children) :
    (walkTree t1 cs).map (fun w => (w.node.entry, w.sentinel)) =
      (walkTree t2 cs).map (fun w => (w.node.entry, w.sentinel)) := by
  cases cs with
  | nil => rfl
  | cons x xs =>
    cases hl : lookup x t2.children with
    | none =>
      rw [walkTree_none xs hl, walkTree_none xs (hc ▸ hl)]
      simp [he]
    | some r =>
      obtain ⟨k, child⟩ := r
      cases xs with
      | nil =>
        rw [walkTree_last hl, walkTree_last (hc ▸ hl)]
        simp [hc]
      | cons y ys => rw [walkTree_more y ys hl, walkTree_more y ys (hc ▸ hl)]

theorem FindLongestMatch_of_children (t1 t2 : Node E) (name : String)
    (he : t1.entry = t2.entry) (hc : t1.children = t2.children) :
    (FindLongestMatch t1 name).map (fun r => r.2) =
      (FindLongestMatch t2 name).map (fun r => r.2) := by
  have hw := walkTree_of_children (components name) t1 t2 he hc
  unfold FindLongestMatch find
  cases h1 : walkTree t1 (components name) with
  | none =>
    cases h2 : walkTree t2 (components name) with
    | none => rfl
    | some w2 => rw [h1, h2] at hw; simp at hw
  | some w1 =>
    cases h2 : walkTree t2 (components name) with
    | none => rw [h1, h2] at hw; simp at hw
    | some w2 =>
      rw [h1, h2] at hw
      simp only [Option.map_some', Option.some.injEq, Prod.mk.injEq] at hw
      by_cases hs : w2.sentinel > 0
      · have hs1 : w1.sentinel > 0 := hw.2 ▸ hs
        simp [hs, hs1, hw.1]
      · have hs1 : ¬ w1.sentinel > 0 := hw.2 ▸ hs
        simp [hs, hs1, hw.1]

/-- C17: everything before the first slash of a name is ignored.  For `s` without
a slash, `Insert(s + "/" + u, p)` gives the tree of `Insert("/" + u, p)` and
`FindExactMatch(s + "/" + u)` the result of `FindExactMatch("/" + u)`; and
`Insert` of a name without any slash leaves the tree unchanged. -/
theorem ignores_before_first_slash (t : Node E) (s u : String) (p : Option E)
    (hs : '/' ∉ s.data) :
    Insert t (s ++ "/" ++ u) p = Insert t ("/" ++ u) p ∧
      FindExactMatch t (s ++ "/" ++ u) = FindExactMatch t ("/" ++ u) ∧
      (∀ name : String, '/' ∉ name.data → Insert t name p = some t) := by
  have hc : components (s ++ "/" ++ u) = components ("/" ++ u) := by
    have h0 : "/" ++ u = "" ++ "/" ++ u := by rw [String.empty_append]
    rw [components_append_slash s u hs, h0, components_append_slash "" u (by simp)]
  refine ⟨?_, FindExactMatch_congr t _ _ hc, ?_⟩
  · unfold Insert
    rw [hc]
  · intro name hn
    rw [Insert_eq, components_of_no_slash name hn]
    rfl

theorem ignores_before_first_slash_witness :
    Insert (New "" : Node Nat) ("xy" ++ "/" ++ "a/b") (some 1)
        = Insert (New "") ("/" ++ "a/b") (some 1) ∧
      FindExactMatch (New "" : Node Nat) ("xy" ++ "/" ++ "a/b")
        = FindExactMatch (New "") ("/" ++ "a/b") ∧
      (∀ name : String, '/' ∉ name.data → Insert (New "" : Node Nat) name (some 1) = some (New "")) :=
  ignores_before_first_slash (New "") "xy" "a/b" (some 1) (by decide)

/-- C18: the root label takes no part in exact matching.  The same sequence of
`Insert` calls on `New(r1)` and on `New(r2)` gives two trees with the same root
entry and the same children, each with its own root label, and `FindExactMatch`
returns the same result on both for every name; `FindLongestMatch` agrees on the
entry and on found as well, only its string can differ. -/
theorem root_label_irrelevant (r1 r2 : String) (ops : List (String × Option E)) :
    ∃ t1 t2 : Node E, insertAll (New r1) ops = some t1 ∧ insertAll (New r2) ops = some t2 ∧
      t1.component = r1 ∧ t2.component = r2 ∧ t1.entry = t2.entry ∧
      t1.children = t2.children ∧
      (∀ name, FindExactMatch t1 name = FindExactMatch t2 name) ∧
      (∀ name, (FindLongestMatch t1 name).map (fun r => r.2) =
        (FindLongestMatch t2 name).map (fun r => r.2)) := by
  obtain ⟨h1, h2, h3⟩ := foldl_insertPath_root ops (New r1 : Node E) (New r2) rfl rfl
  obtain ⟨h4, _, _⟩ := foldl_insertPath_root ops (New r2 : Node E) (New r1) rfl rfl
  exact ⟨_, _, insertAll_eq _ ops, insertAll_eq _ ops, h1, h4, h2, h3,
    fun name => FindExactMatch_of_children _ _ name h3,
    fun name => FindLongestMatch_of_children _ _ name h2 h3⟩

/-! ## Export to the structured shape -/

/-- Induction over a tree: a property holds of every node once it holds of a
node whenever it holds of all its children. -/
theorem tree_induction {P : Node E → Prop}
    (h : ∀ c e ch, (∀ x ∈ ch, P x) → P (Node.mk c e ch)) (t : Node E) : P t :=
  Node.rec (motive_1 := P) (motive_2 := fun l => ∀ x ∈ l, P x)
    (fun c e ch ih => h c e ch ih)
    (fun x hx => absurd hx (List.not_mem_nil x))
    (fun head tail ih1 ih2 x hx => by
      rcases List.mem_cons.1 hx with h1 | h2
      · rw [h1]; exact ih1
      · exact ih2 x h2)
    t

theorem copyChildren_eq (ch : List (Node E)) (acc : List jsonTree) :
    newJSONTree.copyChildren ch acc = acc ++ ch.map newJSONTree := by
  induction ch generalizing acc with
  | nil => simp [newJSONTree.copyChildren]
  | cons c rest ih => simp [newJSONTree.copyChildren, ih]

theorem newJSONTree_mk (c : String) (e : Option E) (ch : List (Node E)) :
    newJSONTree (Node.mk c e ch) = jsonTree.mk c (ch.map newJSONTree) := by
  rw [newJSONTree, copyChildren_eq, List.nil_append]

theorem eraseChildren_eq (ch : List (Node E)) : erase.eraseChildren ch = ch.map erase := by
  induction ch with
  | nil => rfl
  | cons c rest ih => rw [erase.eraseChildren, ih, List.map_cons]

theorem erase_mk (c : String) (e : Option E) (ch : List (Node E)) :
    erase (Node.mk c e ch) = Node.mk c none (ch.map erase) := by
  rw [erase, eraseChildren_eq]

theorem labelChildren_eq (ch : List jsonTree) :
    (labelTree.labelChildren ch : List (Node E)) = ch.map labelTree := by
  induction ch with
  | nil => rfl
  | cons c rest ih => rw [labelTree.labelChildren, ih, List.map_cons]

theorem labelTree_mk (c : String) (ch : List jsonTree) :
    (labelTree (jsonTree.mk c ch) : Node E) = Node.mk c none (ch.map labelTree) := by
  rw [labelTree, labelChildren_eq]

theorem labelTree_newJSONTree (t : Node E) : labelTree (newJSONTree t) = erase t := by
  induction t using tree_induction with
  | h c e ch ih =>
    rw [newJSONTree_mk, labelTree_mk, erase_mk, List.map_map]
    congr 1
    exact List.map_congr_left (fun x hx => ih x hx)

theorem newJSONTree_erase (t : Node E) : newJSONTree (erase t) = newJSONTree t := by
  induction t using tree_induction with
  | h c e ch ih =>
    rw [erase_mk, newJSONTree_mk, newJSONTree_mk, List.map_map]
    congr 1
    exact List.map_congr_left (fun x hx => ih x hx)

/-- C15: the structured-export conversion keeps the label tree and drops the
payloads.  `newJSONTree t` has the label of `t` as `Component` and the
conversions of the children of `t`, in order, as `Children` (none exactly when
`t` has none); reading the shape back gives `t` with its payloads erased; and two
trees export to the same shape exactly when they differ in payloads only. -/
theorem newJSONTree_shape (t t2 : Node E) :
    (newJSONTree t).Component = t.component ∧
      (newJSONTree t).Children = t.children.map newJSONTree ∧
      ((newJSONTree t).Children = [] ↔ t.children = []) ∧
      (labelTree (newJSONTree t) : Node E) = erase t ∧
      (newJSONTree t = newJSONTree t2 ↔ erase t = erase t2) := by
  have h1 : (newJSONTree t).Children = t.children.map newJSONTree := by
    cases t with
    | mk c e ch => rw [newJSONTree_mk]; rfl
  refine ⟨?_, h1, ?_, labelTree_newJSONTree t, ?_⟩
  · cases t with
    | mk c e ch => rw [newJSONTree_mk]; rfl
  · rw [h1, List.map_eq_nil_iff]
  · constructor
    · intro h
      rw [← labelTree_newJSONTree t, ← labelTree_newJSONTree t2, h]
    · intro h
      rw [← newJSONTree_erase t, ← newJSONTree_erase t2, h]

theorem newJSONTree_shape_witness :
    newJSONTree (Node.mk "" none [Node.mk "a" (some 1) []])
      = newJSONTree (Node.mk "" (some 5) [Node.mk "a" (some 2) []]) :=
  (newJSONTree_shape (Node.mk "" none [Node.mk "a" (some 1) []])
    (Node.mk "" (some 5) [Node.mk "a" (some 2) []])).2.2.2.2.2 rfl

/-! ## The display form -/

theorem concatLines_append (l1 l2 : List String) :
    concatLines (l1 ++ l2) = concatLines l1 ++ concatLines l2 := by
  induction l1 with
  | nil => rw [List.nil_append, concatLines, String.empty_append]
  | cons a as ih => rw [List.cons_append, concatLines, concatLines, ih, String.append_assoc]

theorem preorder_mk (base : List Nat) (c : String) (e : Option E) (ch : List (Node E)) :
    preorder base (Node.mk c e ch)
      = (base, Node.mk c e ch) :: preorder.preorderChildren base 0 ch := by
  rw [preorder]

theorem print_mk (c : String) (e : Option E) (ch : List (Node E)) (indent : Nat)
    (buf : String) :
    print (Node.mk c e ch) indent buf =
      print.printChildren ch (indent + 2)
        (buf ++ (String.mk (List.replicate indent ' ') ++ c ++ " \n")) := by
  rw [print]

theorem printChildren_eq (base : List Nat) (l : List (Node E))
    (ih : ∀ x ∈ l, ∀ (b : List Nat) (buf : String), print x (2 * b.length) buf =
      buf ++ concatLines ((preorder b x).map (fun pn => line pn.1.length pn.2.component)))
    (i : Nat) (buf : String) :
    print.printChildren l (2 * base.length + 2) buf =
      buf ++ concatLines ((preorder.preorderChildren base i l).map
        (fun pn => line pn.1.length pn.2.component)) := by
  induction l generalizing i buf with
  | nil =>
    rw [print.printChildren, preorder.preorderChildren, List.map_nil, concatLines,
      String.append_empty]
  | cons child rest ihl =>
    have hlen : 2 * base.length + 2 = 2 * (base ++ [i]).length := by
      rw [List.length_append, List.length_singleton]; omega
    rw [print.printChildren, preorder.preorderChildren, List.map_append, concatLines_append,
      ihl (fun x hx => ih x (List.mem_cons_of_mem _ hx)), hlen,
      ih child (List.mem_cons_self _ _), String.append_assoc]

/-- The text `print` adds to the buffer is the concatenation of the lines of the
nodes in pre-order. -/
theorem print_eq (t : Node E) : ∀ (base : List Nat) (buf : String),
    print t (2 * base.length) buf =
      buf ++ concatLines ((preorder base t).map (fun pn => line pn.1.length pn.2.component)) := by
  induction t using tree_induction with
  | h c e ch ih =>
    intro base buf
    rw [print_mk, printChildren_eq base ch ih 0, preorder_mk, List.map_cons, concatLines,
      String.append_assoc]
    rfl

theorem mem_preorderChildren (base : List Nat) (l : List (Node E))
    (ih : ∀ x ∈ l, ∀ (b : List Nat) (y : List Nat × Node E),
      y ∈ preorder b x ↔ ∃ q, y.1 = b ++ q ∧ nodeAt q x = some y.2)
    (i : Nat) (y : List Nat × Node E) :
    y ∈ preorder.preorderChildren base i l ↔
      ∃ j q, y.1 = base ++ (i + j) :: q ∧ (l[j]?).bind (nodeAt q) = some y.2 := by
  induction l generalizing i with
  | nil => simp [preorder.preorderChildren]
  | cons child rest ihl =>
    rw [preorder.preorderChildren, List.mem_append, ih child (List.mem_cons_self _ _),
      ihl (fun x hx => ih x (List.mem_cons_of_mem _ hx))]
    constructor
    · rintro (⟨q, h1, h2⟩ | ⟨j, q, h1, h2⟩)
      · exact ⟨0, q, by rw [h1]; simp, by simpa using h2⟩
      · exact ⟨j + 1, q, by rw [h1]; simp [Nat.add_comm, Nat.add_left_comm], by simpa using h2⟩
    · rintro ⟨j, q, h1, h2⟩
      cases j with
      | zero => exact Or.inl ⟨q, by rw [h1]; simp, by simpa using h2⟩
      | succ j =>
        exact Or.inr ⟨j, q, by rw [h1]; simp [Nat.add_comm, Nat.add_left_comm],
          by simpa using h2⟩

/-- The pre-order listing holds exactly the nodes of the tree, at their
positions. -/
theorem mem_preorder (t : Node E) : ∀ (base : List Nat) (y : List Nat × Node E),
    y ∈ preorder base t ↔ ∃ q, y.1 = base ++ q ∧ nodeAt q t = some y.2 := by
  induction t using tree_induction with
  | h c e ch ih =>
    intro base y
    rw [preorder_mk, List.mem_cons, mem_preorderChildren base ch ih 0]
    constructor
    · rintro (h | ⟨j, q, h1, h2⟩)
      · exact ⟨[], by rw [h]; simp, by rw [h]; rfl⟩
      · exact ⟨j :: q, by rw [h1]; simp, by rw [nodeAt_cons]; exact h2⟩
    · rintro ⟨q, h1, h2⟩
      cases q with
      | nil =>
        left
        simp only [nodeAt, Option.some.injEq] at h2
        exact Prod.ext (by rw [h1]; simp) h2.symm
      | cons j q => exact Or.inr ⟨j, q, by rw [h1]; simp, by rw [nodeAt_cons] at h2; exact h2⟩

theorem nodup_preorderChildren (base : List Nat) (l : List (Node E))
    (ih : ∀ x ∈ l, ∀ (b : List Nat), ((preorder b x).map Prod.fst).Nodup) (i : Nat) :
    ((preorder.preorderChildren base i l).map Prod.fst).Nodup := by
  induction l generalizing i with
  | nil => simp [preorder.preorderChildren]
  | cons child rest ihl =>
    rw [preorder.preorderChildren, List.map_append]
    refine List.Nodup.append (ih child (List.mem_cons_self _ _) _)
      (ihl (fun x hx => ih x (List.mem_cons_of_mem _ hx)) (i + 1)) ?_
    intro pos h1 h2
    obtain ⟨y1, hy1, rfl⟩ := List.mem_map.1 h1
    obtain ⟨y2, hy2, he⟩ := List.mem_map.1 h2
    obtain ⟨q1, hq1, _⟩ := (mem_preorder child _ y1).1 hy1
    obtain ⟨j, q2, hq2, _⟩ :=
      (mem_preorderChildren base rest (fun x _ => mem_preorder x) (i + 1) y2).1 hy2
    rw [hq1, hq2, List.append_assoc] at he
    have := List.append_cancel_left he
    simp only [List.singleton_append, List.cons.injEq] at this
    omega

/-- No position is listed twice. -/
theorem nodup_preorder (t : Node E) : ∀ (base : List Nat),
    ((preorder base t).map Prod.fst).Nodup := by
  induction t using tree_induction with
  | h c e ch ih =>
    intro base
    rw [preorder_mk, List.map_cons, List.nodup_cons]
    refine ⟨?_, nodup_preorderChildren base ch ih 0⟩
    intro hmem
    obtain ⟨y, hy, he⟩ := List.mem_map.1 hmem
    obtain ⟨j, q, hq, _⟩ :=
      (mem_preorderChildren base ch (fun x _ => mem_preorder x) 0 y).1 hy
    rw [hq] at he
    have := congrArg List.length he
    simp at this

theorem preorderChildren_block (base : List Nat) (l : List (Node E)) (i k : Nat)
    (child : Node E) (h : l[k]? = some child) :
    ∃ pre post, preorder.preorderChildren base i l
      = pre ++ preorder (base ++ [i + k]) child ++ post := by
  induction l generalizing i k with
  | nil => simp at h
  | cons c rest ihl =>
    cases k with
    | zero =>
      simp only [List.getElem?_cons_zero, Option.some.injEq] at h
      subst h
      exact ⟨[], preorder.preorderChildren base (i + 1) rest, by
        rw [preorder.preorderChildren]; rfl⟩
    | succ k =>
      simp only [List.getElem?_cons_succ] at h
      obtain ⟨pre, post, hb⟩ := ihl (i + 1) k h
      refine ⟨preorder (base ++ [i]) c ++ pre, post, ?_⟩
      rw [preorder.preorderChildren, hb]
      have : i + 1 + k = i + (k + 1) := by omega
      rw [this]
      simp only [List.append_assoc]

/-- The listing of a subtree is a block of the listing of the tree: the line of a
node is followed by the lines of its subtree. -/
theorem preorder_block (pos : List Nat) : ∀ (base : List Nat) (t node : Node E),
    nodeAt pos t = some node →
      ∃ pre post, preorder base t = pre ++ preorder (base ++ pos) node ++ post := by
  induction pos with
  | nil =>
    intro base t node h
    simp only [nodeAt, Option.some.injEq] at h
    subst h
    exact ⟨[], [], by simp⟩
  | cons k ks ih =>
    intro base t node h
    cases t with
    | mk c e ch =>
      rw [nodeAt_cons, children_mk] at h
      cases hk : ch[k]? with
      | none => rw [hk] at h; simp at h
      | some child =>
        rw [hk] at h
        obtain ⟨pre1, post1, h1⟩ := preorderChildren_block base ch 0 k child hk
        obtain ⟨pre2, post2, h2⟩ := ih (base ++ [k]) child node h
        refine ⟨(base, Node.mk c e ch) :: (pre1 ++ pre2), post2 ++ post1, ?_⟩
        rw [preorder_mk, h1, Nat.zero_add, h2]
        simp only [List.append_assoc, List.cons_append, List.singleton_append, List.nil_append]

theorem length_preorderChildren (base : List Nat) (l : List (Node E))
    (ih : ∀ x ∈ l, ∀ (b : List Nat), (preorder b x).length = nodeCount x) (i : Nat) :
    (preorder.preorderChildren base i l).length = nodeCount.countChildren l := by
  induction l generalizing i with
  | nil => rfl
  | cons child rest ihl =>
    rw [preorder.preorderChildren, List.length_append, nodeCount.countChildren,
      ih child (List.mem_cons_self _ _), ihl (fun x hx => ih x (List.mem_cons_of_mem _ hx))]

theorem length_preorder (t : Node E) : ∀ (base : List Nat),
    (preorder base t).length = nodeCount t := by
  induction t using tree_induction with
  | h c e ch ih =>
    intro base
    rw [preorder_mk, List.length_cons, length_preorderChildren base ch ih 0, nodeCount_mk]
    omega

theorem count_line (d : Nat) (c : String) (h : '\n' ∉ c.data) :
    (line d c).data.count '\n' = 1 := by
  have hd : (line d c).data = List.replicate (2 * d) ' ' ++ c.data ++ [' ', '\n'] := by
    unfold line
    rw [String.data_append, String.data_append]
  rw [hd, List.count_append, List.count_append, List.count_eq_zero_of_not_mem h,
    List.count_eq_zero_of_not_mem (fun hm => by
      have := List.eq_of_mem_replicate hm
      exact absurd this (by decide))]
  rfl

theorem count_concatLines (L : List String) (h : ∀ s ∈ L, s.data.count '\n' = 1) :
    (concatLines L).data.count '\n' = L.length := by
  induction L with
  | nil => rfl
  | cons a as ih =>
    rw [concatLines, String.data_append, List.count_append, h a (List.mem_cons_self _ _),
      ih (fun s hs => h s (List.mem_cons_of_mem _ hs)), List.length_cons]
    omega

/-- C14: `String()` renders the tree in depth-first pre-order with children in
collection order.  The output is the concatenation, over the pre-order listing of
the nodes, of one line per node: `2 * depth` spaces, the label, a space and a
newline.  The listing holds every node of the tree exactly once (empty labels
included), it has as many entries as the tree has nodes, the listing of a
subtree is a block of it that starts with the root of the subtree, and for labels
without newlines the output has as many newlines as the tree has nodes. -/
theorem treeString_preorder (t : Node E) :
    treeString t =
        concatLines ((preorder [] t).map (fun pn => line pn.1.length pn.2.component)) ∧
      (∀ pos node, (pos, node) ∈ preorder [] t ↔ nodeAt pos t = some node) ∧
      ((preorder [] t).map Prod.fst).Nodup ∧
      (preorder [] t).length = nodeCount t ∧
      (∀ pos node, nodeAt pos t = some node →
        ∃ pre post, preorder [] t = pre ++ preorder pos node ++ post) ∧
      ((∀ pos node, nodeAt pos t = some node → '\n' ∉ node.component.data) →
        (treeString t).data.count '\n' = nodeCount t) := by
  have h1 : treeString t =
      concatLines ((preorder [] t).map (fun pn => line pn.1.length pn.2.component)) := by
    have := print_eq t [] ""
    rw [String.empty_append] at this
    exact this
  have h2 : ∀ pos node, (pos, node) ∈ preorder [] t ↔ nodeAt pos t = some node := by
    intro pos node
    rw [mem_preorder t [] (pos, node)]
    constructor
    · rintro ⟨q, hq, hn⟩
      simp only [List.nil_append] at hq
      rw [hq]; exact hn
    · intro hn
      exact ⟨pos, rfl, hn⟩
  refine ⟨h1, h2, nodup_preorder t [], length_preorder t [], ?_, ?_⟩
  · intro pos node hn
    exact preorder_block pos [] t node hn
  · intro hlab
    rw [h1, count_concatLines, List.length_map, length_preorder]
    intro s hs
    obtain ⟨pn, hpn, rfl⟩ := List.mem_map.1 hs
    exact count_line _ _ (hlab pn.1 pn.2 ((h2 pn.1 pn.2).1 hpn))

theorem treeString_preorder_witness :
    treeString (Node.mk "" (none : Option Nat)
        [Node.mk "a" (some 1) [Node.mk "b" (some 2) []], Node.mk "c" (some 3) []])
      = " \n  a \n    b \n  c \n" :=
  (treeString_preorder (Node.mk "" (none : Option Nat)
    [Node.mk "a" (some 1) [Node.mk "b" (some 2) []], Node.mk "c" (some 3) []])).1.trans
    (by decide)

end NameTree
